import Mathlib

/-!
Verification of the build-graph assembly engine (`apt2ostree/ninja.py`).

The Python module is shallowly embedded: the `Ninja` session object becomes an
explicit `NinjaState` record threaded through the operations, exceptions become
`Except NinjaErr`, writes to the underlying graph writer become an explicit
event trace, and the SHA-256 fingerprints are computed by a full executable
SHA-256 over the byte-level encoding that CPython's `str(...)` produces for the
hashed tuples.
-/

/- ## Basic helpers -/

/-- First-match association-list lookup, mirroring Python `dict` access for the
key-unique association lists built by the model. -/
def lookupAssoc {α : Type} : List (String × α) → String → Option α
  | [], _ => Option.none
  | (k, v) :: rest, key => if key = k then some v else lookupAssoc rest key

/-- Python `sep.join(items)` for a list of strings. -/
def joinSep (sep : String) : List String → String
  | [] => ""
  | [x] => x
  | x :: y :: rest => x ++ sep ++ joinSep sep (y :: rest)

/-- The apostrophe character (Python's default string-repr quote). -/
def quoteChar : Char := Char.ofNat 39

/-- Lower-case hexadecimal digit for `n % 16`. -/
def hexDigitChar (n : Nat) : Char :=
  if n % 16 < 10 then Char.ofNat (48 + n % 16) else Char.ofNat (87 + n % 16)

/-- Escaping of one character inside a CPython `repr` of a string (backslash,
the active quote, newline/carriage-return/tab, `\xNN` for other control
characters; printable characters are kept as-is). -/
def pyEscapeChar (quote c : Char) : List Char :=
  if c = '\\' then ['\\', '\\']
  else if c = quote then ['\\', quote]
  else if c = '\n' then ['\\', 'n']
  else if c = '\r' then ['\\', 'r']
  else if c = '\t' then ['\\', 't']
  else if c.toNat < 32 || c.toNat = 127 then
    ['\\', 'x', hexDigitChar (c.toNat / 16), hexDigitChar c.toNat]
  else [c]

/-- CPython `repr` of a string: single quotes by default, double quotes when
the string contains a single quote but no double quote. -/
def pyReprStr (s : String) : String :=
  let cs := s.toList
  let quote := if cs.contains quoteChar && !(cs.contains '"') then '"' else quoteChar
  String.mk (quote :: (cs.map (pyEscapeChar quote)).flatten ++ [quote])

/-- Python values that appear as keyword-argument values of `Ninja.build` in
the source: strings, lists of strings, the `variables` dict, and `None`. -/
inductive PyVal where
  | str (s : String)
  | list (l : List String)
  | dict (d : List (String × String))
  | none
deriving DecidableEq, Repr

/-- CPython `str`/`repr` of a `PyVal`. -/
def pyRepr : PyVal → String
  | .str s => pyReprStr s
  | .list l => "[" ++ joinSep ", " (l.map pyReprStr) ++ "]"
  | .dict d =>
      "\x7b" ++ joinSep ", " (d.map (fun kv => pyReprStr kv.1 ++ ": " ++ pyReprStr kv.2)) ++ "\x7d"
  | .none => "None"

/-- Lexicographic order on `(key, value)` string pairs, as Python compares
tuples of strings. -/
def pairLe (a b : String × String) : Bool :=
  decide (a.1 < b.1) || (decide (a.1 = b.1) && decide (¬ b.2 < a.2))

/-- Ordered insertion for `sortPairs`. -/
def insertPair (p : String × String) : List (String × String) → List (String × String)
  | [] => [p]
  | q :: rest => if pairLe p q then p :: q :: rest else q :: insertPair p rest

/-- Python `sorted` on a list of `(key, value)` string pairs. -/
def sortPairs : List (String × String) → List (String × String)
  | [] => []
  | p :: rest => insertPair p (sortPairs rest)

/-- Ordered insertion for `sortPyPairs` (comparison on the keys; dict keys are
unique so Python's tuple comparison never reaches the values). -/
def insertPyPair (p : String × PyVal) : List (String × PyVal) → List (String × PyVal)
  | [] => [p]
  | q :: rest => if decide (p.1 < q.1) || decide (p.1 = q.1) then p :: q :: rest
      else q :: insertPyPair p rest

/-- Python `sorted(kwargs.items())` for the keyword arguments of `Ninja.build`. -/
def sortPyPairs : List (String × PyVal) → List (String × PyVal)
  | [] => []
  | p :: rest => insertPyPair p (sortPyPairs rest)

/-- Python dict assignment `d[k] = v`: overwrite in place when the key exists,
otherwise append (insertion order is preserved). -/
def assocSet : List (String × String) → String → String → List (String × String)
  | [], k, v => [(k, v)]
  | (k2, v2) :: rest, k, v =>
      if k = k2 then (k, v) :: rest else (k2, v2) :: assocSet rest k v

/- ## SHA-256 (executable, over `Nat` bytes) -/

/-- Truncation to a 32-bit word. -/
def w32 (n : Nat) : Nat := n % 4294967296

/-- Right rotation of a 32-bit word. -/
def rotr32 (n x : Nat) : Nat := (x >>> n) ||| w32 (x <<< (32 - n))

/-- SHA-256 round constants. -/
def sha256K : List Nat :=
  [1116352408, 1899447441, 3049323471, 3921009573, 961987163, 1508970993,
   2453635748, 2870763221, 3624381080, 310598401, 607225278, 1426881987,
   1925078388, 2162078206, 2614888103, 3248222580, 3835390401, 4022224774,
   264347078, 604807628, 770255983, 1249150122, 1555081692, 1996064986,
   2554220882, 2821834349, 2952996808, 3210313671, 3336571891, 3584528711,
   113926993, 338241895, 666307205, 773529912, 1294757372, 1396182291,
   1695183700, 1986661051, 2177026350, 2456956037, 2730485921, 2820302411,
   3259730800, 3345764771, 3516065817, 3600352804, 4094571909, 275423344,
   430227734, 506948616, 659060556, 883997877, 958139571, 1322822218,
   1537002063, 1747873779, 1955562222, 2024104815, 2227730452, 2361852424,
   2428436474, 2756734187, 3204031479, 3329325298]

/-- SHA-256 initial hash value. -/
def sha256H0 : List Nat :=
  [1779033703, 3144134277, 1013904242, 2773480762, 1359893119, 2600822924,
   528734635, 1541459225]

/-- SHA-256 message padding: append `0x80`, zero bytes up to 56 mod 64, then
the bit length as a 64-bit big-endian integer. -/
def sha256pad (msg : List Nat) : List Nat :=
  let len := msg.length
  let zeros := (119 - len % 64) % 64
  msg ++ 0x80 :: List.replicate zeros 0 ++
    (List.range 8).map (fun i => (len * 8) >>> (8 * (7 - i)) % 256)

/-- Big-endian packing of bytes into 32-bit words. -/
def bytesToWords : List Nat → List Nat
  | b0 :: b1 :: b2 :: b3 :: rest =>
      (((b0 * 256 + b1) * 256 + b2) * 256 + b3) :: bytesToWords rest
  | _ => []

/-- Split a word list into 16-word blocks (the padded message is always a
multiple of 16 words long). -/
def chunk16 : List Nat → List (List Nat)
  | a1 :: a2 :: a3 :: a4 :: a5 :: a6 :: a7 :: a8 ::
      a9 :: a10 :: a11 :: a12 :: a13 :: a14 :: a15 :: a16 :: rest =>
      [a1, a2, a3, a4, a5, a6, a7, a8, a9, a10, a11, a12, a13, a14, a15, a16] ::
        chunk16 rest
  | [] => []
  | other => [other]

/-- SHA-256 small sigma 0. -/
def smallSigma0 (x : Nat) : Nat := rotr32 7 x ^^^ rotr32 18 x ^^^ (x >>> 3)

/-- SHA-256 small sigma 1. -/
def smallSigma1 (x : Nat) : Nat := rotr32 17 x ^^^ rotr32 19 x ^^^ (x >>> 10)

/-- SHA-256 big sigma 0. -/
def bigSigma0 (x : Nat) : Nat := rotr32 2 x ^^^ rotr32 13 x ^^^ rotr32 22 x

/-- SHA-256 big sigma 1. -/
def bigSigma1 (x : Nat) : Nat := rotr32 6 x ^^^ rotr32 11 x ^^^ rotr32 25 x

/-- Message-schedule extension from 16 to 64 words. -/
def extendSchedule (w0 : Array Nat) : Array Nat :=
  (List.range 48).foldl (fun w i =>
    w.push (w32 (w.getD i 0 + smallSigma0 (w.getD (i + 1) 0) +
      w.getD (i + 9) 0 + smallSigma1 (w.getD (i + 14) 0)))) w0

/-- One SHA-256 compression round on the `[a,b,c,d,e,f,g,h]` state. -/
def sha256Round (st : List Nat) (kw : Nat × Nat) : List Nat :=
  match st with
  | [a, b, c, d, e, f, g, h] =>
      let ch := (e &&& f) ^^^ ((4294967295 - e) &&& g)
      let maj := (a &&& b) ^^^ (a &&& c) ^^^ (b &&& c)
      let t1 := w32 (h + bigSigma1 e + ch + kw.1 + kw.2)
      let t2 := w32 (bigSigma0 a + maj)
      [w32 (t1 + t2), a, b, c, w32 (d + t1), e, f, g]
  | other => other

/-- SHA-256 compression of one 16-word block into the running hash. -/
def sha256Compress (h : List Nat) (block : List Nat) : List Nat :=
  let w := extendSchedule block.toArray
  let st := (sha256K.zip w.toList).foldl sha256Round h
  (h.zip st).map (fun p => w32 (p.1 + p.2))

/-- SHA-256 of a byte sequence, as eight 32-bit words. -/
def sha256Words (msg : List Nat) : List Nat :=
  (chunk16 (bytesToWords (sha256pad msg))).foldl sha256Compress sha256H0

/-- Eight lower-case hex digits of a 32-bit word. -/
def toHex8 (n : Nat) : List Char :=
  (List.range 8).map (fun i => hexDigitChar (n >>> (4 * (7 - i))))

/-- Lower-case hex digest of a byte sequence (`hashlib.sha256(...).hexdigest()`). -/
def sha256hexChars (msg : List Nat) : List Char :=
  ((sha256Words msg).map toHex8).flatten

/-- UTF-8 encoding of one character. -/
def utf8Bytes (c : Char) : List Nat :=
  let n := c.toNat
  if n < 128 then [n]
  else if n < 2048 then [192 + n / 64, 128 + n % 64]
  else if n < 65536 then [224 + n / 4096, 128 + n / 64 % 64, 128 + n % 64]
  else [240 + n / 262144, 128 + n / 4096 % 64, 128 + n / 64 % 64, 128 + n % 64]

/-- Python `s.encode('utf-8')` as a list of byte values. -/
def strBytes (s : String) : List Nat := (s.toList.map utf8Bytes).flatten

/-- Python `hashlib.sha256(s.encode('utf-8')).hexdigest()`. -/
def sha256hexStr (s : String) : String := String.mk (sha256hexChars (strBytes s))

/- ## Variable extractor (`vars_in`) -/

/-- Word character of the regex class `\w` (`[A-Za-z0-9_]` for the ASCII
templates this program handles). -/
def isWordChar (c : Char) : Bool := c.isAlpha || c.isDigit || c = '_'

/-- Python `text.split('$$')`: the fragments between `$$` escape sequences. -/
def splitDD : List Char → List (List Char)
  | '$' :: '$' :: rest => [] :: splitDD rest
  | c :: rest =>
      match splitDD rest with
      | f :: fs => (c :: f) :: fs
      | [] => [[c]]
  | [] => [[]]

/-- Python `text.split('\n')`. -/
def splitNL : List Char → List (List Char)
  | '\n' :: rest => [] :: splitNL rest
  | c :: rest =>
      match splitNL rest with
      | f :: fs => (c :: f) :: fs
      | [] => [[c]]
  | [] => [[]]

/-- Python `re.findall(r"\$(\w+)", x)`: the maximal nonempty word runs
directly after a dollar sign, in scan order. -/
def findallBare (cs : List Char) : List (List Char) :=
  match cs with
  | [] => []
  | c :: rest =>
      if c = '$' then
        let run := rest.takeWhile isWordChar
        if run.isEmpty then findallBare rest
        else run :: findallBare (rest.drop run.length)
      else findallBare rest
termination_by cs.length
decreasing_by all_goals (try simp [List.length_drop]); all_goals omega

/-- Python `re.findall(r"\${(\w+)}", x)`: the braced variable references, in
scan order. On a failed match the scan advances one character, as the regex
engine does. -/
def findallBraced (cs : List Char) : List (List Char) :=
  match cs with
  | '$' :: '{' :: rest =>
      let run := rest.takeWhile isWordChar
      if run.isEmpty ∨ (rest.drop run.length).head? ≠ some '}' then
        findallBraced ('{' :: rest)
      else run :: findallBraced (rest.drop run.length).tail
  | _ :: rest => findallBraced rest
  | [] => []
termination_by cs.length
decreasing_by
  all_goals (try simp [List.length_drop, List.length_tail]); all_goals omega

/-- Python `re.search(r'\$[^_{0-9a-zA-Z]', line)`: index of the first dollar
sign followed by a character neither a word character nor an opening brace
(`none` when no such pair exists; a trailing dollar has no following
character and never matches). -/
def findBadDollar : List Char → Option Nat
  | c1 :: c2 :: rest =>
      if c1 = '$' ∧ ¬(isWordChar c2 ∨ c2 = '{') then some 0
      else (findBadDollar (c2 :: rest)).map (· + 1)
  | _ => none

/-- Error message of `vars_in` for a bad dollar escape: a header, the
offending line, and a caret under the offending position. -/
def badEscapeMsg (line : List Char) (i : Nat) : String :=
  "bad $-escape (literal $ must be written as $$)\n" ++ String.mk line ++ "\n" ++
    String.mk (List.replicate i ' ') ++ "^ near here"

/-- The first line of a fragment containing a bad dollar escape, with the
offending position. -/
def firstBadLine : List (List Char) → Option (List Char × Nat)
  | [] => Option.none
  | l :: rest =>
      match findBadDollar l with
      | some i => some (l, i)
      | Option.none => firstBadLine rest

/-- Exceptions the tracked `open` re-raises. -/
inductive PyIOErr where
  | enoent
  | other (msg : String)
deriving DecidableEq, Repr

/-- Exceptions raised by the module: `RuntimeError`, its subclass
`DuplicateTarget`, `TypeError`, a failed `assert`, and re-raised I/O errors. -/
inductive NinjaErr where
  | runtimeError (msg : String)
  | duplicateTarget (msg : String)
  | typeError (msg : String)
  | assertionError
  | ioError (e : PyIOErr)
deriving DecidableEq, Repr

/-- Processing of one `$$`-fragment in `vars_in`: collect the bare and braced
references, then fail on the first line containing a bad dollar escape. -/
def varsInFragment (frag : List Char) : Except NinjaErr (List (List Char)) :=
  match firstBadLine (splitNL frag) with
  | Option.none => .ok (findallBare frag ++ findallBraced frag)
  | some li => .error (.runtimeError (badEscapeMsg li.1 li.2))

/-- Fold of `varsInFragment` over the fragments of one template string. -/
def varsInFrags : List (List Char) → Except NinjaErr (List (List Char))
  | [] => .ok []
  | f :: fs => do
      let a ← varsInFragment f
      let b ← varsInFrags fs
      .ok (a ++ b)

/-- Argument shapes the module accepts where Python duck-types between
`None`, one string, and a list of strings. -/
inductive PyStrs where
  | none
  | str (s : String)
  | list (l : List String)
deriving DecidableEq, Repr

/-- Fold of the per-string extraction over a list of template strings. -/
def varsInTexts : List String → Except NinjaErr (List (List Char))
  | [] => .ok []
  | s :: rest => do
      let a ← varsInFrags (splitDD s.toList)
      let b ← varsInTexts rest
      .ok (a ++ b)

/-- The variable extractor `vars_in`: the set of `$name` / `${name}`
references of the template(s), with `$$` escapes split away first; a
remaining dollar followed by a character outside `[A-Za-z0-9_{]` is a fatal
error. The Python function returns a `set`; the model returns the names in
scan order, to be read with list membership (set semantics). -/
def vars_in (items : PyStrs) : Except NinjaErr (List String) :=
  match items with
  | .none => .ok []
  | .str s => (varsInTexts [s]).map (fun l => l.map String.mk)
  | .list l => (varsInTexts l).map (fun l2 => l2.map String.mk)

/- ## `textwrap.dedent` -/

/-- Space or tab, the characters `textwrap.dedent` treats as indentation. -/
def isIndentChar (c : Char) : Bool := c = ' ' || c = '\t'

/-- First pass of `textwrap.dedent`: a line consisting solely of whitespace
becomes an empty line. -/
def blankWsLine (line : List Char) : List Char :=
  if ¬ line.isEmpty ∧ line.all isIndentChar then [] else line

/-- Longest common prefix of two character lists. -/
def commonPrefix2 : List Char → List Char → List Char
  | x :: xs, y :: ys => if x = y then x :: commonPrefix2 xs ys else []
  | _, _ => []

/-- The margin `textwrap.dedent` computes: the common whitespace prefix of
all lines that still have content after the first pass. -/
def dedentMargin (lines : List (List Char)) : Option (List Char) :=
  lines.foldl (fun acc line =>
    if line.isEmpty then acc
    else
      let ind := line.takeWhile isIndentChar
      match acc with
      | Option.none => some ind
      | some m => some (commonPrefix2 m ind)) Option.none

/-- Python `textwrap.dedent`: strip the common leading whitespace of the
content lines. -/
def dedent (s : String) : String :=
  let lines := (splitNL s.toList).map blankWsLine
  let margin := (dedentMargin lines).getD []
  let out := lines.map (fun line =>
    if margin.isPrefixOf line then line.drop margin.length else line)
  joinSep "\n" (out.map String.mk)

/- ## Session state and graph-writer trace -/

/-- Modelled from the spec: `ninja_syntax.as_list` belongs to this repository
but is not under `src/`; per the spec the API "normalizes at the boundary
into an ordered sequence type" — `None` becomes the empty list, a single
string a one-element list, and a list is passed through. -/
def as_list : PyStrs → List String
  | .none => []
  | .str s => [s]
  | .list l => l

/-- The `(args, kwargs)` pair `Ninja.rule` records for a rule name. -/
abbrev RuleContents := List String × List (String × PyVal)

/-- Python `==` on string-keyed dicts: order-insensitive comparison of the
key-unique association lists that play the role of dicts. -/
def pyStrDictEq (a b : List (String × String)) : Bool :=
  a.length == b.length && a.all (fun kv => lookupAssoc b kv.1 == some kv.2)

/-- Python `==` on the values appearing in rule options. -/
def pyValEq : PyVal → PyVal → Bool
  | .str a, .str b => a == b
  | .list a, .list b => a == b
  | .dict a, .dict b => pyStrDictEq a b
  | .none, .none => true
  | _, _ => false

/-- Python `==` on keyword-argument dicts with `PyVal` values. -/
def pyKwargsEq (a b : List (String × PyVal)) : Bool :=
  a.length == b.length &&
    a.all (fun kv =>
      match lookupAssoc b kv.1 with
      | some v => pyValEq kv.2 v
      | Option.none => false)

/-- Python `==` on the `(args, kwargs)` pairs `Ninja.rule` compares. -/
def rcEq (a b : RuleContents) : Bool := a.1 == b.1 && pyKwargsEq a.2 b.2

/-- One write to the underlying `ninja_syntax.Writer` (the opaque graph
writer): the trace of emitted text. -/
inductive Event where
  | varLine (key value : String) (indent : Nat)
  | ruleLine (name : String) (contents : RuleContents)
  | stackComment
  | buildLine (outputs : List String) (rule : String) (inputs : List String)
      (kwargs : List (String × PyVal))
  | newline
deriving DecidableEq, Repr

/-- The state of a `Ninja` session: the bookkeeping tables, the
generator-dependency set (insertion-ordered), the trace of writer events,
and the output-file lifecycle (`closed` mirrors `self.output.closed`;
`renames` counts the atomic renames performed by `close`). -/
structure NinjaState where
  debug : Bool
  standalone : Bool
  ninjafile : String
  global_vars : List (String × String)
  targets : List (String × Option String)
  rules : List (String × RuleContents)
  generator_deps : List String
  events : List Event
  closed : Bool
  renames : Nat
deriving DecidableEq, Repr

/-- `NINJA_AUTO_VARS`: the variables ninja or the binding engine provides. -/
def NINJA_AUTO_VARS : List String := ["in", "out", "_args_digest"]

/-- `Ninja.add_target`: register an output path with the fingerprint of the
statement producing it. `true` stands for `ALREADY_WRITTEN` (the path is
registered with an identical fingerprint), `false` for a fresh
registration; an empty target is an invalid-target `RuntimeError`, and a
fingerprint conflict a `DuplicateTarget` error. -/
def NinjaState.add_target (st : NinjaState) (target : String)
    (rulehash : Option String := Option.none) : Except NinjaErr (NinjaState × Bool) :=
  if target = "" then
    .error (.runtimeError ("Invalid target filename " ++ pyReprStr target))
  else
    match lookupAssoc st.targets target with
    | some h =>
        if h = rulehash then .ok (st, true)
        else .error (.duplicateTarget ("Duplicate target " ++ pyReprStr target ++
          " with different rule"))
    | Option.none => .ok ({ st with targets := st.targets ++ [(target, rulehash)] }, false)

/-- The CPython `str((rule, inputs, sorted(kwargs.items())))` encoding that
`Ninja.build` hashes. -/
def encodeFingerprint (rule : String) (inputs : List String)
    (kwargs : List (String × PyVal)) : String :=
  "(" ++ pyReprStr rule ++ ", " ++ pyRepr (PyVal.list inputs) ++ ", " ++
    "[" ++ joinSep ", " ((sortPyPairs kwargs).map
      (fun kv => "(" ++ pyReprStr kv.1 ++ ", " ++ pyRepr kv.2 ++ ")")) ++ "]" ++ ")"

/-- The per-statement fingerprint of `Ninja.build`. -/
def fingerprint (rule : String) (inputs : List String)
    (kwargs : List (String × PyVal)) : String :=
  sha256hexStr (encodeFingerprint rule inputs kwargs)

/-- The output loop of `Ninja.build`: check/register each output in list
order; `true` means the loop returned early (an identical duplicate, or a
tolerated non-identical duplicate). -/
def buildLoop (st : NinjaState) (fp : String) (allow : Bool) :
    List String → Except NinjaErr (NinjaState × Bool)
  | [] => .ok (st, false)
  | x :: rest =>
      match st.add_target x (some fp) with
      | .ok (st2, true) => .ok (st2, true)
      | .ok (st2, false) => buildLoop st2 fp allow rest
      | .error (.duplicateTarget m) =>
          if allow then .ok (st, true) else .error (.duplicateTarget m)
      | .error e => .error e

/-- `Ninja.build`: emit one build statement after the duplicate-target
checks, returning the state and the normalized outputs list the Python
method returns. -/
def NinjaState.build (st : NinjaState) (outputs : PyStrs) (rule : String)
    (inputs : PyStrs := PyStrs.none) (allow_non_identical_duplicates : Bool := false)
    (kwargs : List (String × PyVal) := []) : Except NinjaErr (NinjaState × List String) :=
  let outs := as_list outputs
  let ins := as_list inputs
  let fp := fingerprint rule ins kwargs
  match buildLoop st fp allow_non_identical_duplicates outs with
  | .error e => .error e
  | .ok (st2, true) => .ok (st2, outs)
  | .ok (st2, false) =>
      let st3 := if st2.debug then { st2 with events := st2.events ++ [Event.stackComment] }
        else st2
      .ok ({ st3 with events := st3.events ++ [Event.buildLine outs rule ins kwargs] }, outs)

/-- `Ninja.variable`: global (indent 0) variables are write-once; re-setting
with the identical value is a silent no-op, with a different value a fatal
`RuntimeError`. -/
def NinjaState.variable (st : NinjaState) (key value : String) (indent : Nat := 0) :
    Except NinjaErr NinjaState :=
  if indent = 0 then
    match lookupAssoc st.global_vars key with
    | some v =>
        if value ≠ v then
          .error (.runtimeError ("Setting key to " ++ key ++
            ", when it was already set to " ++ value))
        else .ok st
    | Option.none =>
        .ok { st with global_vars := st.global_vars ++ [(key, value)],
                      events := st.events ++ [Event.varLine key value 0] }
  else .ok { st with events := st.events ++ [Event.varLine key value indent] }

/-- `Ninja.rule`: rule definitions are write-once by name; an identical
re-declaration is a no-op, a differing one fails the `assert`. -/
def NinjaState.rule (st : NinjaState) (name : String) (contents : RuleContents) :
    Except NinjaErr NinjaState :=
  match lookupAssoc st.rules name with
  | some c => if rcEq c contents then .ok st else .error .assertionError
  | Option.none =>
      .ok { st with rules := st.rules ++ [(name, contents)],
                    events := st.events ++ [Event.ruleLine name contents] }

/-- Python `os.path.dirname`: the prefix up to the last `/`, with trailing
slashes stripped unless the head is all slashes. -/
def dirname (s : String) : String :=
  let cs := s.toList
  let head := (cs.reverse.dropWhile (fun c => c ≠ '/')).reverse
  if head.isEmpty || head.all (fun c => c = '/') then String.mk head
  else String.mk ((head.reverse.dropWhile (fun c => c = '/')).reverse)

/-- The dependency path `os.path.dirname(filename) or '.'` that `Ninja.open`
registers when the file does not exist. -/
def dirnameOrDot (s : String) : String :=
  if dirname s = "" then "." else dirname s

/-- Path normalization of `os.path.relpath` restricted to paths relative to
the current working directory: drop empty and `.` components, resolve `..`
against preceding components, and yield `.` for an empty result. -/
def relpathCwd (s : String) : String :=
  let comps := (s.splitOn "/").filter (fun c => c ≠ "" && c ≠ ".")
  let stack := comps.foldl (fun acc c =>
    if c = ".." then
      match acc with
      | [] => [".."]
      | top :: rest => if top = ".." then c :: top :: rest else rest
    else c :: acc) []
  let comps2 := stack.reverse
  if comps2.isEmpty then "." else joinSep "/" comps2

/-- `Ninja.add_generator_dep`: record a normalized path (with `.pyc`
rewritten to `.py`) in the generator-dependency set; insertion order is the
canonical set order, and re-insertion is a no-op. -/
def NinjaState.add_generator_dep (st : NinjaState) (filename : String) : NinjaState :=
  let d := (relpathCwd filename).replace ".pyc" ".py"
  if d ∈ st.generator_deps then st
  else { st with generator_deps := st.generator_deps ++ [d] }

/-- `Ninja.open`: the tracked `open`. The ambient filesystem is an oracle
`fs filename mode` returning a handle or an I/O error. The final state is
returned alongside the result, because the not-found path both registers a
dependency and re-raises the error. -/
def NinjaState.openTracked {H : Type} (fs : String → String → Except PyIOErr H)
    (st : NinjaState) (filename : String) (mode : String) :
    NinjaState × Except NinjaErr H :=
  match (if 'w' ∈ mode.toList then st.add_target filename Option.none
         else .ok (st, false)) with
  | .error e => (st, .error e)
  | .ok (st1, _) =>
      if 'r' ∈ mode.toList then
        match fs filename mode with
        | .ok h => (st1.add_generator_dep filename, .ok h)
        | .error PyIOErr.enoent =>
            (st1.add_generator_dep (dirnameOrDot filename),
             .error (.ioError PyIOErr.enoent))
        | .error e => (st1, .error (.ioError e))
      else
        match fs filename mode with
        | .ok h => (st1, .ok h)
        | .error e => (st1, .error (.ioError e))

/-- `Ninja.close`: idempotent commit. On the first close of an open session,
emit the self-regeneration statement (standalone mode), close the writer,
and atomically rename the temporary file onto the final name (counted by
`renames`); a closed session is left untouched. -/
def NinjaState.close (st : NinjaState) : Except NinjaErr NinjaState :=
  if st.closed then .ok st
  else
    match (if st.standalone then
             (st.build (.str st.ninjafile) "configure" (.list st.generator_deps)).map Prod.fst
           else .ok st) with
    | .error e => .error e
    | .ok st2 => .ok { st2 with closed := true, renames := st2.renames + 1 }

/- ## Rule definition and binding engine -/

/-- A `Rule` object: name, dedented command template, declared template
lists, extra rule options, duplicate tolerance, and the referenced-variable
set computed at construction time. The `output_type` constructor wrapping is
not modelled (this corresponds to rules with `output_type=None`, the
default). -/
structure RuleDef where
  name : String
  command : String
  outputs : List String
  inputs : List String
  order_only : List String
  implicit : List String
  kwargs : List (String × PyVal)
  allow_non_identical_duplicates : Bool
  vars : List String
  description : String
deriving DecidableEq, Repr

/-- `Rule.__init__`: dedent the command, compute the referenced-variable set
from the command/inputs/outputs templates (propagating the extractor's
syntax errors), and derive the default description. The Python variable set
is canonicalized as the deduplicated list in extraction order. -/
def mkRule (name command : String) (outputs : PyStrs := PyStrs.none)
    (inputs : PyStrs := PyStrs.none) (description : Option String := Option.none)
    (order_only : PyStrs := PyStrs.none) (implicit : PyStrs := PyStrs.none)
    (allow_non_identical_duplicates : Bool := false)
    (kwargs : List (String × PyVal) := []) : Except NinjaErr RuleDef := do
  let cmd := dedent command
  let vc ← vars_in (PyStrs.str command)
  let vi ← vars_in inputs
  let vo ← vars_in outputs
  let vars := (vc ++ vi ++ vo).dedup
  let desc := match description with
    | some d => d
    | Option.none => name ++ "(" ++ joinSep ", " (vars.map (fun x => x ++ "=$" ++ x)) ++ ")"
  .ok { name, command := cmd, outputs := as_list outputs, inputs := as_list inputs,
        order_only := as_list order_only, implicit := as_list implicit,
        kwargs, allow_non_identical_duplicates, vars, description := desc }

/-- The `(args, kwargs)` pair recorded by `Ninja.rule` for the registration
`ninja.rule(self.name, self.command, description=self.description,
**self.kwargs)` issued from `Rule.build`. -/
def ruleContentsOf (r : RuleDef) : RuleContents :=
  ([r.command], ("description", PyVal.str r.description) :: r.kwargs)

/-- The CPython `str([self.name] + sorted(kwargs.items()))` encoding hashed
for `_args_digest`. -/
def encodeArgsDigest (name : String) (kwargs : List (String × String)) : String :=
  "[" ++ joinSep ", " (pyReprStr name ::
    (sortPairs kwargs).map (fun kv => "(" ++ pyReprStr kv.1 ++ ", " ++ pyReprStr kv.2 ++ ")")) ++
    "]"

/-- The automatic `_args_digest` of `Rule.build`:
`sha256(str([name] + sorted(kwargs.items())))[:7]`. -/
def argsDigest (name : String) (kwargs : List (String × String)) : String :=
  String.mk ((sha256hexChars (strBytes (encodeArgsDigest name kwargs))).take 7)

/-- Digest injection of `Rule.build`: when the rule declares `_args_digest`,
store the digest of the supplied arguments into the argument dict. -/
def injectDigest (name : String) (vars : List String)
    (kwargs : List (String × String)) : List (String × String) :=
  if "_args_digest" ∈ vars then assocSet kwargs "_args_digest" (argsDigest name kwargs)
  else kwargs

/-- Modelled from the spec: `ninja_syntax.expand` belongs to this repository
but is not under `src/`; per the spec, binding "expands each of the rule's
templated output/input/implicit path lists by substituting global variables
then concrete arguments into their placeholders". Concrete arguments take
precedence, `$$` yields a literal dollar, and unknown names expand to the
empty string. -/
def expandChars (globalVars localVars : List (String × String)) (cs : List Char) :
    List Char :=
  match cs with
  | [] => []
  | '$' :: '$' :: rest => '$' :: expandChars globalVars localVars rest
  | '$' :: rest =>
      let run := rest.takeWhile isWordChar
      let v := match lookupAssoc localVars (String.mk run) with
        | some v => v
        | Option.none => (lookupAssoc globalVars (String.mk run)).getD ""
      v.toList ++ expandChars globalVars localVars (rest.drop run.length)
  | c :: rest => c :: expandChars globalVars localVars rest
termination_by cs.length
decreasing_by all_goals (try simp [List.length_drop]); all_goals omega

/-- Template expansion over strings (see `expandChars`). -/
def expand (s : String) (globalVars localVars : List (String × String)) : String :=
  String.mk (expandChars globalVars localVars s.toList)

/-- `None`-or-string rule-binding options as Python values. -/
def optPyVal : Option String → PyVal
  | some s => PyVal.str s
  | Option.none => PyVal.none

/-- `Rule.build`: register the rule, validate the supplied arguments against
the declared variable set, inject `_args_digest`, expand the declared
output/input/implicit templates, and emit the statement through
`Ninja.build`. -/
def RuleDef.build (r : RuleDef) (st : NinjaState) (outputs : List String := [])
    (inputs : List String := []) (implicit : List String := [])
    (order_only : List String := []) (implicit_outputs : Option String := Option.none)
    (pool : Option String := Option.none) (kwargs : List (String × String) := []) :
    Except NinjaErr (NinjaState × List String) := do
  let st := { st with events := st.events ++ [Event.newline] }
  let st ← st.rule r.name (ruleContentsOf r)
  let v := kwargs.map Prod.fst
  let missing := r.vars.filter (fun x =>
    ¬ x ∈ v ∧ ¬ x ∈ st.global_vars.map Prod.fst ∧ ¬ x ∈ NINJA_AUTO_VARS)
  if missing ≠ [] then
    throw (.typeError ("Missing arguments to rule " ++ r.name ++ ": " ++
      joinSep ", " missing))
  let extra := v.filter (fun x => ¬ x ∈ r.vars)
  if extra ≠ [] then
    throw (.typeError ("Rule " ++ r.name ++ " got unexpected arguments: " ++
      joinSep ", " extra))
  let kwargs2 := injectDigest r.name r.vars kwargs
  let outputs2 := outputs ++ r.outputs.map (fun x => expand x st.global_vars kwargs2)
  let inputs2 := inputs ++ r.inputs.map (fun x => expand x st.global_vars kwargs2)
  let implicit2 := implicit ++ r.implicit.map (fun x => expand x st.global_vars kwargs2)
  let st := { st with events := st.events ++ [Event.newline] }
  st.build (.list outputs2) r.name (.list inputs2) r.allow_non_identical_duplicates
    [("implicit", PyVal.list implicit2),
     ("order_only", PyVal.list (r.order_only ++ order_only)),
     ("implicit_outputs", optPyVal implicit_outputs), ("pool", optPyVal pool),
     ("variables", PyVal.dict kwargs2)]

/- ## Shared lemmas about the session operations -/

/-- Lookup distributes over appended association lists. -/
theorem lookupAssoc_append {α : Type} (l1 l2 : List (String × α)) (k : String) :
    lookupAssoc (l1 ++ l2) k =
      match lookupAssoc l1 k with
      | some v => some v
      | Option.none => lookupAssoc l2 k := by
  induction l1 with
  | nil => simp [lookupAssoc]
  | cons p rest ih =>
      obtain ⟨a, b⟩ := p
      by_cases h : k = a <;> simp [lookupAssoc, h, ih]

/-- A successful `add_target` only changes the target table. -/
theorem add_target_ok_shape (st : NinjaState) (t : String) (rh : Option String)
    (st2 : NinjaState) (b : Bool) (h : st.add_target t rh = .ok (st2, b)) :
    ∃ ts, st2 = { st with targets := ts } := by
  unfold NinjaState.add_target at h
  split at h
  · exact absurd h (by simp)
  · split at h
    · split at h
      · exact ⟨st.targets, by injection h with h2; cases h2; rfl⟩
      · exact absurd h (by simp)
    · exact ⟨st.targets ++ [(t, rh)], by injection h with h2; cases h2; rfl⟩

/-- A successful `buildLoop` only changes the target table. -/
theorem buildLoop_ok_shape (fp : String) (allow : Bool) (l : List String) :
    ∀ (st st2 : NinjaState) (b : Bool), buildLoop st fp allow l = .ok (st2, b) →
      ∃ ts, st2 = { st with targets := ts } := by
  induction l with
  | nil =>
      intro st st2 b h
      unfold buildLoop at h
      injection h with h2
      cases h2
      exact ⟨st.targets, rfl⟩
  | cons x rest ih =>
      intro st st2 b h
      unfold buildLoop at h
      rcases hat : st.add_target x (some fp) with e | p
      · rw [hat] at h
        rcases e with m | m | m | _ | e <;> simp at h
        split at h
        · injection h with h2; cases h2; exact ⟨st.targets, rfl⟩
        · exact absurd h (by simp)
      · obtain ⟨sta, ba⟩ := p
        rw [hat] at h
        obtain ⟨ts1, hts1⟩ := add_target_ok_shape st x (some fp) sta ba hat
        cases ba
        · simp at h
          obtain ⟨ts2, hts2⟩ := ih sta st2 b h
          exact ⟨ts2, by rw [hts2, hts1]⟩
        · simp at h
          exact ⟨ts1, by rw [← h.1]; exact hts1⟩

/-- A successful `Ninja.build` only changes the target table and the event
trace. -/
theorem build_ok_shape (st : NinjaState) (outputs : PyStrs) (rule : String)
    (inputs : PyStrs) (allow : Bool) (kwargs : List (String × PyVal))
    (st2 : NinjaState) (res : List String)
    (h : st.build outputs rule inputs allow kwargs = .ok (st2, res)) :
    ∃ ts es, st2 = { st with targets := ts, events := es } := by
  simp only [NinjaState.build] at h
  rcases hbl : buildLoop st (fingerprint rule (as_list inputs) kwargs) allow
      (as_list outputs) with e | p
  · rw [hbl] at h; simp at h
  · obtain ⟨stb, bb⟩ := p
    rw [hbl] at h
    obtain ⟨ts1, hts1⟩ := buildLoop_ok_shape _ _ _ st stb bb hbl
    cases bb
    · simp at h
      obtain ⟨h1, _⟩ := h
      subst hts1
      split at h1 <;>
        exact ⟨ts1, _, by rw [← h1]⟩
    · simp at h
      exact ⟨ts1, st.events, by rw [← h.1, hts1]⟩

/-- An empty session state used for the concrete instantiations below. -/
def st0 : NinjaState :=
  { debug := false, standalone := false, ninjafile := "build.ninja",
    global_vars := [], targets := [], rules := [], generator_deps := [],
    events := [], closed := false, renames := 0 }

/- ## Claim C5 -/

/-- C5: re-setting a global variable with the value it already holds is a
silent no-op (state, trace and table unchanged) while a different value
raises a fatal error; re-declaring a rule name with Python-equal contents is
a no-op that does not re-emit the rule, while differing contents fail the
assertion. -/
theorem variable_rule_redefinition (st : NinjaState) (key v v2 name : String)
    (c c2 c3 : RuleContents)
    (hv : lookupAssoc st.global_vars key = some v)
    (hr : lookupAssoc st.rules name = some c) :
    st.variable key v 0 = .ok st ∧
    (v2 ≠ v → st.variable key v2 0 = .error (.runtimeError
      ("Setting key to " ++ key ++ ", when it was already set to " ++ v2))) ∧
    (rcEq c c2 = true → st.rule name c2 = .ok st) ∧
    (rcEq c c3 = false → st.rule name c3 = .error .assertionError) := by
  refine ⟨?_, fun hne => ?_, fun he => ?_, fun hne2 => ?_⟩
  · simp [NinjaState.variable, hv]
  · simp [NinjaState.variable, hv, hne]
  · simp [NinjaState.rule, hr, he]
  · simp [NinjaState.rule, hr, hne2]

/-- Concrete session state for the redefinition instances. -/
def stC5 : NinjaState :=
  { st0 with global_vars := [("builddir", "_build")],
             rules := [("cc", (["gcc $in"], []))] }

/-- Witness for C5 at a concrete state, variable and rule. -/
theorem variable_rule_redefinition_witness :
    stC5.variable "builddir" "_build" 0 = .ok stC5 ∧
    stC5.variable "builddir" "other" 0 = .error (.runtimeError
      ("Setting key to " ++ "builddir" ++ ", when it was already set to " ++ "other")) ∧
    stC5.rule "cc" (["gcc $in"], []) = .ok stC5 ∧
    stC5.rule "cc" (["clang"], []) = .error .assertionError := by
  have h := variable_rule_redefinition stC5 "builddir" "_build" "other" "cc"
    (["gcc $in"], []) (["gcc $in"], []) (["clang"], []) rfl rfl
  exact ⟨h.1, h.2.1 (by decide), h.2.2.1 (by decide), h.2.2.2 (by decide)⟩

/- ## Claim C1 -/

/-- C1: with output path `p` already registered under fingerprint `h0`, a
second build statement declaring `p` behaves by fingerprint comparison:
identical — a no-op returning the outputs without re-emitting; different with
duplicates not allowed — a fatal `DuplicateTarget` naming the path; different
with duplicates allowed — silently return the outputs, retaining the original
registration and emitting nothing. -/
theorem build_duplicate_target (st : NinjaState) (p : String) (rest : List String)
    (rule : String) (inputs : PyStrs) (kwargs : List (String × PyVal))
    (h0 : Option String) (allow : Bool)
    (hp : p ≠ "") (hreg : lookupAssoc st.targets p = some h0) :
    (h0 = some (fingerprint rule (as_list inputs) kwargs) →
      st.build (.list (p :: rest)) rule inputs allow kwargs = .ok (st, p :: rest)) ∧
    (h0 ≠ some (fingerprint rule (as_list inputs) kwargs) → allow = false →
      st.build (.list (p :: rest)) rule inputs allow kwargs =
        .error (.duplicateTarget ("Duplicate target " ++ pyReprStr p ++
          " with different rule"))) ∧
    (h0 ≠ some (fingerprint rule (as_list inputs) kwargs) → allow = true →
      st.build (.list (p :: rest)) rule inputs allow kwargs = .ok (st, p :: rest)) := by
  have hl : as_list (PyStrs.list (p :: rest)) = p :: rest := rfl
  refine ⟨fun he => ?_, fun hne hallow => ?_, fun hne hallow => ?_⟩
  · subst he
    simp [NinjaState.build, hl, buildLoop, NinjaState.add_target, hp, hreg]
  · subst hallow
    simp [NinjaState.build, hl, buildLoop, NinjaState.add_target, hp, hreg, hne]
  · subst hallow
    simp [NinjaState.build, hl, buildLoop, NinjaState.add_target, hp, hreg, hne]

/-- A state with `a.o` registered under the fingerprint of `cc` on `a.c`,
and `lib.o` registered without a fingerprint. -/
def stC1 : NinjaState :=
  { st0 with targets := [("a.o", some (fingerprint "cc" ["a.c"] [])),
                         ("lib.o", Option.none)] }

/-- Witness for C1: the three outcomes at concrete states. -/
theorem build_duplicate_target_witness :
    stC1.build (.list ["a.o"]) "cc" (.list ["a.c"]) false [] = .ok (stC1, ["a.o"]) ∧
    stC1.build (.list ["lib.o"]) "cc" (.list ["a.c"]) false [] =
      .error (.duplicateTarget ("Duplicate target " ++ pyReprStr "lib.o" ++
        " with different rule")) ∧
    stC1.build (.list ["lib.o"]) "cc" (.list ["a.c"]) true [] = .ok (stC1, ["lib.o"]) := by
  refine ⟨(build_duplicate_target stC1 "a.o" [] "cc" (.list ["a.c"]) []
      (some (fingerprint "cc" ["a.c"] [])) false (by decide) rfl).1 rfl,
    (build_duplicate_target stC1 "lib.o" [] "cc" (.list ["a.c"]) [] Option.none false
      (by decide) rfl).2.1 (by simp) rfl,
    (build_duplicate_target stC1 "lib.o" [] "cc" (.list ["a.c"]) [] Option.none true
      (by decide) rfl).2.2 (by simp) rfl⟩

/- ## Claim C10 -/

/-- C10: outputs normalizing to the empty list bypass all registry checks and
registration — the statement is forwarded to the graph writer with zero
outputs and no error is raised — although a single empty-string output path
inside a non-empty list is a fatal invalid-target error. -/
theorem build_no_outputs (st : NinjaState) (outputs : PyStrs) (rule : String)
    (inputs : PyStrs) (kwargs : List (String × PyVal)) (allow : Bool)
    (hempty : as_list outputs = []) :
    st.build outputs rule inputs allow kwargs =
      .ok ({ st with events := st.events ++
          (if st.debug then [Event.stackComment] else []) ++
          [Event.buildLine [] rule (as_list inputs) kwargs] }, []) ∧
    st.build (.list [""]) rule inputs allow kwargs =
      .error (.runtimeError ("Invalid target filename " ++ pyReprStr "")) := by
  constructor
  · simp only [NinjaState.build, hempty, buildLoop]
    cases hd : st.debug <;> simp [hd]
  · have hl : as_list (PyStrs.list [""]) = [""] := rfl
    simp [NinjaState.build, hl, buildLoop, NinjaState.add_target]

/-- Witness for C10 at a concrete state and rule. -/
theorem build_no_outputs_witness :
    st0.build PyStrs.none "phony" PyStrs.none false [] =
      .ok ({ st0 with events := st0.events ++
          (if st0.debug then [Event.stackComment] else []) ++
          [Event.buildLine [] "phony" (as_list PyStrs.none) []] }, []) ∧
    st0.build (.list [""]) "phony" PyStrs.none false [] =
      .error (.runtimeError ("Invalid target filename " ++ pyReprStr "")) :=
  build_no_outputs st0 PyStrs.none "phony" PyStrs.none [] false rfl

/- ## Claim C7 -/

/-- C7: closing is idempotent — a successful first close of an open session
marks the writer closed and performs exactly one rename, and any later close
of the resulting session is an error-free no-op that writes and renames
nothing further. -/
theorem close_idempotent (st st2 : NinjaState)
    (hopen : st.closed = false) (h : st.close = .ok st2) :
    st2.closed = true ∧ st2.renames = st.renames + 1 ∧ st2.close = .ok st2 := by
  unfold NinjaState.close at h
  rw [hopen] at h
  simp only [Bool.false_eq_true, if_false] at h
  rcases hb : (if st.standalone = true then
      Except.map Prod.fst
        (st.build (PyStrs.str st.ninjafile) "configure" (PyStrs.list st.generator_deps)
          false [])
    else .ok st) with e | s
  · rw [hb] at h; simp at h
  · rw [hb] at h
    simp only [Except.ok.injEq] at h
    subst h
    have hs : s.renames = st.renames := by
      split at hb
      · rcases hbb : st.build (PyStrs.str st.ninjafile) "configure"
            (PyStrs.list st.generator_deps) false [] with e2 | p2
        · rw [hbb] at hb; simp [Except.map] at hb
        · obtain ⟨sb, res⟩ := p2
          rw [hbb] at hb
          simp only [Except.map, Except.ok.injEq] at hb
          obtain ⟨ts, es, hshape⟩ := build_ok_shape st _ _ _ _ _ sb res hbb
          rw [← hb, hshape]
      · injection hb with hb2
        rw [← hb2]
    refine ⟨rfl, by simp [hs], ?_⟩
    unfold NinjaState.close
    simp

/-- Witness for C7: closing the empty open session, then closing again. -/
theorem close_idempotent_witness :
    ({ st0 with closed := true, renames := st0.renames + 1 } : NinjaState).closed = true ∧
    ({ st0 with closed := true, renames := st0.renames + 1 } : NinjaState).renames =
      st0.renames + 1 ∧
    ({ st0 with closed := true, renames := st0.renames + 1 } : NinjaState).close =
      .ok { st0 with closed := true, renames := st0.renames + 1 } :=
  close_idempotent st0 { st0 with closed := true, renames := st0.renames + 1 } rfl rfl

/- ## Claim C8 -/

/-- C8: the tracked read-mode `open` registers the file itself as a generator
dependency on success and returns the handle; on file-not-found it registers
the containing directory (`.` when the path has no directory component)
instead and re-raises the not-found error; any other I/O error propagates
unchanged and no dependency is registered. -/
theorem openTracked_read_deps {H : Type} (fs : String → String → Except PyIOErr H)
    (st : NinjaState) (filename mode : String)
    (hr : 'r' ∈ mode.toList) (hw : 'w' ∉ mode.toList) :
    (∀ h, fs filename mode = .ok h →
      NinjaState.openTracked fs st filename mode =
        (st.add_generator_dep filename, .ok h)) ∧
    (fs filename mode = .error PyIOErr.enoent →
      NinjaState.openTracked fs st filename mode =
        (st.add_generator_dep (dirnameOrDot filename),
         .error (.ioError PyIOErr.enoent))) ∧
    (∀ m, fs filename mode = .error (PyIOErr.other m) →
      NinjaState.openTracked fs st filename mode =
        (st, .error (.ioError (PyIOErr.other m)))) := by
  simp only [String.toList] at hr hw
  refine ⟨fun h hok => ?_, fun henoent => ?_, fun m hother => ?_⟩
  · simp [NinjaState.openTracked, hr, hw, hok]
  · simp [NinjaState.openTracked, hr, hw, henoent]
  · simp [NinjaState.openTracked, hr, hw, hother]

/-- Witness for C8: the three oracle outcomes at concrete paths. -/
theorem openTracked_read_deps_witness :
    NinjaState.openTracked (fun _ _ => (.ok 7 : Except PyIOErr Nat)) st0 "conf/a.cfg" "r" =
      (st0.add_generator_dep "conf/a.cfg", .ok 7) ∧
    NinjaState.openTracked (fun _ _ => (.error PyIOErr.enoent : Except PyIOErr Nat)) st0
      "conf/missing.cfg" "r" =
      (st0.add_generator_dep (dirnameOrDot "conf/missing.cfg"),
       .error (.ioError PyIOErr.enoent)) ∧
    NinjaState.openTracked (fun _ _ => (.error (PyIOErr.other "EACCES") : Except PyIOErr Nat))
      st0 "conf/a.cfg" "r" = (st0, .error (.ioError (PyIOErr.other "EACCES"))) :=
  ⟨(openTracked_read_deps _ st0 "conf/a.cfg" "r" (by decide) (by decide)).1 7 rfl,
   (openTracked_read_deps _ st0 "conf/missing.cfg" "r" (by decide) (by decide)).2.1 rfl,
   (openTracked_read_deps _ st0 "conf/a.cfg" "r" (by decide) (by decide)).2.2 "EACCES" rfl⟩

/- ## Claim C9 -/

/-- The output loop behind C9: fresh outputs before the already-registered
path are registered one at a time, and the loop stops at the registered path
without touching the remainder of the list. -/
theorem buildLoop_early_return (fp : String) (allow : Bool) (p : String)
    (outs2 : List String) (hpne : p ≠ "") :
    ∀ (outs1 : List String) (st : NinjaState),
      (∀ x ∈ outs1, lookupAssoc st.targets x = Option.none) →
      (∀ x ∈ outs1, x ≠ "") → outs1.Nodup → p ∉ outs1 →
      lookupAssoc st.targets p = some (some fp) →
      buildLoop st fp allow (outs1 ++ p :: outs2) =
        .ok ({ st with targets := st.targets ++ outs1.map (fun x => (x, some fp)) },
          true) := by
  intro outs1
  induction outs1 with
  | nil =>
      intro st hfresh hne hnd hp hreg
      simp [buildLoop, NinjaState.add_target, hpne, hreg]
  | cons x rest ih =>
      intro st hfresh hne hnd hp hreg
      have hx : x ≠ "" := hne x (by simp)
      have hxl : lookupAssoc st.targets x = Option.none := hfresh x (by simp)
      have hxrest : x ∉ rest := (List.nodup_cons.mp hnd).1
      have hat : st.add_target x (some fp) =
          .ok ({ st with targets := st.targets ++ [(x, some fp)] }, false) := by
        simp [NinjaState.add_target, hx, hxl]
      have ihres := ih { st with targets := st.targets ++ [(x, some fp)] }
        (by
          intro y hy
          rw [lookupAssoc_append]
          rw [hfresh y (List.mem_cons_of_mem x hy)]
          have hyx : y ≠ x := fun he => hxrest (he ▸ hy)
          simp [lookupAssoc, hyx])
        (fun y hy => hne y (List.mem_cons_of_mem x hy))
        (List.nodup_cons.mp hnd).2
        (fun hmem => hp (List.mem_cons_of_mem x hmem))
        (by rw [lookupAssoc_append, hreg])
      simp only [List.cons_append, buildLoop, hat]
      simp only [List.append_eq]
      rw [ihres]
      simp [List.append_assoc]

/-- C9: with several outputs, `Ninja.build` checks them one at a time in list
order and returns at the first output already registered with an identical
fingerprint: outputs earlier in the list have by then been registered with
the new fingerprint even though no statement is emitted, and outputs later in
the list are never checked or registered. -/
theorem build_ordered_early_return (st : NinjaState) (outs1 : List String) (p : String)
    (outs2 : List String) (rule : String) (inputs : PyStrs)
    (kwargs : List (String × PyVal)) (allow : Bool)
    (hfresh : ∀ x ∈ outs1, lookupAssoc st.targets x = Option.none)
    (hne : ∀ x ∈ outs1, x ≠ "") (hnd : outs1.Nodup) (hp : p ∉ outs1) (hpne : p ≠ "")
    (hreg : lookupAssoc st.targets p =
      some (some (fingerprint rule (as_list inputs) kwargs))) :
    st.build (.list (outs1 ++ p :: outs2)) rule inputs allow kwargs =
      .ok ({ st with targets := (st.targets ++
          outs1.map (fun x => (x, some (fingerprint rule (as_list inputs) kwargs)))) },
        outs1 ++ p :: outs2) := by
  have hl : as_list (PyStrs.list (outs1 ++ p :: outs2)) = outs1 ++ p :: outs2 := rfl
  simp only [NinjaState.build, hl]
  rw [buildLoop_early_return _ _ _ _ hpne outs1 st hfresh hne hnd hp hreg]

/-- A state with only `a.o` registered, under the no-variable `cc`
fingerprint. -/
def stC9 : NinjaState :=
  { st0 with targets := [("a.o", some (fingerprint "cc" ["a.c"] []))] }

/-- Witness for C9: a fresh `b.o` before the duplicate `a.o`, with `c.o`
after it left unregistered. -/
theorem build_ordered_early_return_witness :
    stC9.build (.list (["b.o"] ++ "a.o" :: ["c.o"])) "cc" (.list ["a.c"]) false [] =
      .ok ({ stC9 with targets := (stC9.targets ++
          [("b.o", some (fingerprint "cc" (as_list (PyStrs.list ["a.c"])) []))]) },
        ["b.o"] ++ "a.o" :: ["c.o"]) := by
  have h := build_ordered_early_return stC9 ["b.o"] "a.o" ["c.o"] "cc" (.list ["a.c"]) []
    false (by intro x hx; simp at hx; subst hx; rfl) (by decide) (by simp) (by simp)
    (by decide) rfl
  simpa using h

/- ## Claim C2 -/

/-- A concrete rule `r` with command `cc $a`, declaring exactly the variable
set `\x7ba\x7d`. -/
def ruleA : RuleDef :=
  { name := "r", command := "cc $a", outputs := [], inputs := [], order_only := [],
    implicit := [], kwargs := [], allow_non_identical_duplicates := false,
    vars := ["a"], description := "r(a=$a)" }

/-- Sanity: `ruleA` is exactly what the `Rule` constructor produces. -/
theorem ruleA_eq_mkRule : mkRule "r" "cc $a" = .ok ruleA := by
  have h1 : ("cc $a").toList = ['c', 'c', ' ', '$', 'a'] := rfl
  simp [mkRule, vars_in, varsInTexts, varsInFrags, varsInFragment, h1, splitDD, splitNL,
    findBadDollar, findallBare, findallBraced, isWordChar, firstBadLine, dedent,
    dedentMargin, blankWsLine, as_list, ruleA, joinSep, List.takeWhile]
  rfl

/-- C2 counterexample: rule `r` declares variables `\x7ba\x7d` and the bind
supplies only `b`. The supplied-minus-declared set is non-empty (it contains
`b`), so the claim requires an unexpected-argument error naming `b`, but the
code checks the missing-argument condition first and raises the
missing-argument error naming `a` instead. -/
theorem rule_build_check_order_counterexample :
    ("b" ∈ (([("b", "1")] : List (String × String)).map Prod.fst).filter
        (fun x => ¬ x ∈ ruleA.vars)) ∧
    RuleDef.build ruleA st0 [] [] [] [] Option.none Option.none [("b", "1")] =
      .error (.typeError "Missing arguments to rule r: a") ∧
    ¬ RuleDef.build ruleA st0 [] [] [] [] Option.none Option.none [("b", "1")] =
      .error (.typeError "Rule r got unexpected arguments: b") := by
  refine ⟨by decide, by rfl, fun hcontra => ?_⟩
  have h := (rfl : RuleDef.build ruleA st0 [] [] [] [] Option.none Option.none
      [("b", "1")] = .error (.typeError "Missing arguments to rule r: a")).symm.trans
    hcontra
  injection h with h2
  injection h2 with h3
  exact absurd h3 (by decide)

/-- Whether the session's rule table accepts (re-)registration of `r`: its
name is either unregistered or registered with Python-equal contents. -/
def ruleRegistrable (st : NinjaState) (r : RuleDef) : Prop :=
  match lookupAssoc st.rules r.name with
  | Option.none => True
  | some c => rcEq c (ruleContentsOf r) = true

/-- Bind of a successful `Except` computation reduces to its continuation. -/
theorem exceptBindOk {e a b : Type} (x : a) (f : a → Except e b) :
    (Except.ok x : Except e a) >>= f = f x := rfl

/-- The rule registration inside `Rule.build` succeeds on a registrable table
and preserves the global-variable table. -/
theorem rule_build_registration (r : RuleDef) (st : NinjaState)
    (hreg : ruleRegistrable st r) :
    ∃ st2, NinjaState.rule { st with events := st.events ++ [Event.newline] } r.name
        (ruleContentsOf r) = .ok st2 ∧ st2.global_vars = st.global_vars := by
  unfold ruleRegistrable at hreg
  rcases hlu : lookupAssoc st.rules r.name with _ | c
  · refine ⟨{ st with rules := st.rules ++ [(r.name, ruleContentsOf r)],
                      events := ((st.events ++ [Event.newline]) ++
                        [Event.ruleLine r.name (ruleContentsOf r)]) }, ?_, rfl⟩
    simp [NinjaState.rule, hlu]
  · rw [hlu] at hreg
    refine ⟨{ st with events := st.events ++ [Event.newline] }, ?_, rfl⟩
    simp [NinjaState.rule, hlu, hreg]

/-- C2 (amended): `Rule.build` validates the supplied argument set `S` against
the declared variable set `V`, the global-variable keys `G` and the builtin
names in two ordered steps — when `V − S − G − builtins` is non-empty it
raises a fatal missing-argument error listing exactly those names, and
otherwise, when `S − V` is non-empty, it raises a fatal unexpected-argument
error listing exactly those names (a bind with both sets non-empty reports
only the missing-argument error). -/
theorem rule_build_argument_checks (r : RuleDef) (st : NinjaState)
    (outputs inputs implicit order_only : List String) (io po : Option String)
    (kwargs : List (String × String)) (hreg : ruleRegistrable st r) :
    (r.vars.filter (fun x => ¬ x ∈ kwargs.map Prod.fst ∧
        ¬ x ∈ st.global_vars.map Prod.fst ∧ ¬ x ∈ NINJA_AUTO_VARS) ≠ [] →
      r.build st outputs inputs implicit order_only io po kwargs =
        .error (.typeError ("Missing arguments to rule " ++ r.name ++ ": " ++
          joinSep ", " (r.vars.filter (fun x => ¬ x ∈ kwargs.map Prod.fst ∧
            ¬ x ∈ st.global_vars.map Prod.fst ∧ ¬ x ∈ NINJA_AUTO_VARS))))) ∧
    (r.vars.filter (fun x => ¬ x ∈ kwargs.map Prod.fst ∧
        ¬ x ∈ st.global_vars.map Prod.fst ∧ ¬ x ∈ NINJA_AUTO_VARS) = [] →
      (kwargs.map Prod.fst).filter (fun x => ¬ x ∈ r.vars) ≠ [] →
      r.build st outputs inputs implicit order_only io po kwargs =
        .error (.typeError ("Rule " ++ r.name ++ " got unexpected arguments: " ++
          joinSep ", " ((kwargs.map Prod.fst).filter (fun x => ¬ x ∈ r.vars))))) ∧
    (∀ x, x ∈ r.vars.filter (fun x => ¬ x ∈ kwargs.map Prod.fst ∧
        ¬ x ∈ st.global_vars.map Prod.fst ∧ ¬ x ∈ NINJA_AUTO_VARS) ↔
      (x ∈ r.vars ∧ ¬ x ∈ kwargs.map Prod.fst ∧ ¬ x ∈ st.global_vars.map Prod.fst ∧
        ¬ x ∈ NINJA_AUTO_VARS)) ∧
    (∀ x, x ∈ (kwargs.map Prod.fst).filter (fun x => ¬ x ∈ r.vars) ↔
      (x ∈ kwargs.map Prod.fst ∧ ¬ x ∈ r.vars)) := by
  obtain ⟨st2, hst2, hgv⟩ := rule_build_registration r st hreg
  refine ⟨fun hmiss => ?_, fun hmiss hextra => ?_,
    fun x => by simp [List.mem_filter], fun x => by simp [List.mem_filter]⟩
  · simp only [RuleDef.build, hst2, exceptBindOk, hgv]
    rw [if_pos hmiss]
    rfl
  · simp only [RuleDef.build, hst2, exceptBindOk, hgv]
    rw [if_neg (fun hne => hne hmiss), if_pos hextra]
    rfl

/-- Witness for C2 (amended): binding `ruleA` with no arguments raises the
missing-argument error naming `a`; binding with `a` and an extra `c` raises
the unexpected-argument error naming `c`. -/
theorem rule_build_argument_checks_witness :
    RuleDef.build ruleA st0 [] [] [] [] Option.none Option.none [] =
      .error (.typeError "Missing arguments to rule r: a") ∧
    RuleDef.build ruleA st0 [] [] [] [] Option.none Option.none
        [("a", "1"), ("c", "2")] =
      .error (.typeError "Rule r got unexpected arguments: c") := by
  constructor
  · have h := (rule_build_argument_checks ruleA st0 [] [] [] [] Option.none Option.none
      [] (by trivial)).1 (by decide)
    rw [h]
    rfl
  · have h := (rule_build_argument_checks ruleA st0 [] [] [] [] Option.none Option.none
      [("a", "1"), ("c", "2")] (by trivial)).2.1 (by decide) (by decide)
    rw [h]
    rfl

/- ## Claim C6 -/

set_option maxHeartbeats 2000000 in
/-- C6 counterexample: the digest is SHA-256 truncated to 7 hex characters
(28 bits), so distinct argument assignments can collide. Under rule name `r`,
the argument dicts `x=4581` and `x=6360` differ but receive the identical
automatic digest. -/
theorem args_digest_collision :
    ([("x", "4581")] : List (String × String)) ≠ [("x", "6360")] ∧
    argsDigest "r" [("x", "4581")] = argsDigest "r" [("x", "6360")] := by decide

/-- Looking up the key just assigned by `assocSet` yields the new value. -/
theorem lookupAssoc_assocSet (l : List (String × String)) (k v : String) :
    lookupAssoc (assocSet l k v) k = some v := by
  induction l with
  | nil => simp [assocSet, lookupAssoc]
  | cons p rest ih =>
      obtain ⟨k2, v2⟩ := p
      by_cases h : k = k2 <;> simp [assocSet, lookupAssoc, h, ih]

/-- `sha256Round` preserves the length of the state vector. -/
theorem sha256Round_length (st : List Nat) (kw : Nat × Nat) :
    (sha256Round st kw).length = st.length := by
  unfold sha256Round
  split
  · simp_all
  · rfl

/-- Folding compression rounds preserves the state length. -/
theorem foldl_sha256Round_length (l : List (Nat × Nat)) (st : List Nat) :
    (l.foldl sha256Round st).length = st.length := by
  induction l generalizing st with
  | nil => rfl
  | cons p rest ih => simp [List.foldl_cons, ih, sha256Round_length]

/-- One block compression preserves the hash length. -/
theorem sha256Compress_length (h bl : List Nat) :
    (sha256Compress h bl).length = h.length := by
  unfold sha256Compress
  simp [List.length_zip, foldl_sha256Round_length]

/-- The SHA-256 hash state is eight words. -/
theorem sha256Words_length (msg : List Nat) : (sha256Words msg).length = 8 := by
  unfold sha256Words
  generalize chunk16 (bytesToWords (sha256pad msg)) = blocks
  have hfold : ∀ (bs : List (List Nat)) (h : List Nat), h.length = 8 →
      (bs.foldl sha256Compress h).length = 8 := by
    intro bs
    induction bs with
    | nil => intro h hh; simpa
    | cons b rest ih =>
        intro h hh
        rw [List.foldl_cons]
        exact ih _ (by rw [sha256Compress_length, hh])
  exact hfold blocks sha256H0 rfl

/-- The hex digest has 64 characters. -/
theorem sha256hexChars_length (msg : List Nat) : (sha256hexChars msg).length = 64 := by
  unfold sha256hexChars
  rw [List.length_flatten]
  have hmap : (List.map List.length ((sha256Words msg).map toHex8)) =
      (sha256Words msg).map (fun _ => 8) := by
    rw [List.map_map]
    refine List.map_congr_left (fun n _ => ?_)
    simp [Function.comp, toHex8]
  rw [hmap]
  rw [show ((sha256Words msg).map (fun _ => 8)) =
    List.replicate (sha256Words msg).length 8 from List.map_const' _ 8]
  rw [sha256Words_length, List.sum_replicate]
  norm_num

/-- `hexDigitChar` always yields a lower-case hex digit. -/
theorem hexDigitChar_mem_hex (n : Nat) : hexDigitChar n ∈ "0123456789abcdef".toList := by
  unfold hexDigitChar
  have h : n % 16 < 16 := Nat.mod_lt _ (by norm_num)
  set m := n % 16 with hm
  interval_cases m <;> decide

/-- Every character of the hex digest is a lower-case hex digit. -/
theorem sha256hexChars_hex (msg : List Nat) :
    ∀ c ∈ sha256hexChars msg, c ∈ "0123456789abcdef".toList := by
  intro c hc
  unfold sha256hexChars at hc
  rw [List.mem_flatten] at hc
  obtain ⟨l, hl, hcl⟩ := hc
  rw [List.mem_map] at hl
  obtain ⟨n, _, rfl⟩ := hl
  unfold toHex8 at hcl
  rw [List.mem_map] at hcl
  obtain ⟨i, _, rfl⟩ := hcl
  exact hexDigitChar_mem_hex _

/-- C6 (amended): when a rule's declared variable set contains `_args_digest`,
every bind injects into the bound arguments a digest computed
deterministically from the rule name and the sorted concrete keyword
arguments; the digest is 7 lower-case hex characters, and two binds whose
sorted argument lists agree receive the identical digest — but the digest is
a 28-bit truncation of SHA-256, so two binds with different arguments may
receive the same digest (see the collision counterexample). -/
theorem args_digest_injection (name : String) (vars : List String)
    (kwargs kwargs2 : List (String × String)) (hd : "_args_digest" ∈ vars) :
    lookupAssoc (injectDigest name vars kwargs) "_args_digest" =
      some (argsDigest name kwargs) ∧
    (argsDigest name kwargs).length = 7 ∧
    (∀ c ∈ (argsDigest name kwargs).toList, c ∈ "0123456789abcdef".toList) ∧
    (sortPairs kwargs = sortPairs kwargs2 →
      argsDigest name kwargs = argsDigest name kwargs2) := by
  refine ⟨?_, ?_, ?_, fun hs => ?_⟩
  · unfold injectDigest
    rw [if_pos hd]
    exact lookupAssoc_assocSet kwargs _ _
  · unfold argsDigest
    rw [String.length_mk, List.length_take, sha256hexChars_length]
    norm_num
  · unfold argsDigest
    intro c hc
    have hc2 : c ∈ (sha256hexChars (strBytes (encodeArgsDigest name kwargs))).take 7 := hc
    exact sha256hexChars_hex _ c (List.take_subset _ _ hc2)
  · unfold argsDigest encodeArgsDigest
    rw [hs]

/-- Witness for C6 (amended) at the colliding rule name and arguments. -/
theorem args_digest_injection_witness :
    lookupAssoc (injectDigest "r" ["_args_digest"] [("x", "4581")]) "_args_digest" =
      some (argsDigest "r" [("x", "4581")]) ∧
    (argsDigest "r" [("x", "4581")]).length = 7 ∧
    (∀ c ∈ (argsDigest "r" [("x", "4581")]).toList, c ∈ "0123456789abcdef".toList) ∧
    (sortPairs [("x", "4581")] = sortPairs [("x", "4581")] →
      argsDigest "r" [("x", "4581")] = argsDigest "r" [("x", "4581")]) :=
  args_digest_injection "r" ["_args_digest"] [("x", "4581")] [("x", "4581")] (by decide)

/- ## Claim C3 -/

/-- Bind of a failed `Except` computation stays the failure. -/
theorem exceptBindErr {e a b : Type} (x : e) (f : a → Except e b) :
    (Except.error x : Except e a) >>= f = Except.error x := rfl

/-- A dollar sign at position `i` of a ln followed by a character that is
neither a word character nor an opening brace (the regex match at `i`). -/
def badPairAt (ln : List Char) (i : Nat) : Prop :=
  ln[i]? = some '$' ∧
    (ln[i + 1]?.any (fun c => !(isWordChar c || c = '{'))) = true

/-- An index found by `findBadDollar` satisfies `badPairAt`. -/
theorem findBadDollar_some : ∀ (l : List Char) (i : Nat),
    findBadDollar l = some i → badPairAt l i := by
  intro l
  induction l with
  | nil => intro i h; simp [findBadDollar] at h
  | cons c1 rest ih =>
      cases rest with
      | nil => intro i h; simp [findBadDollar] at h
      | cons c2 rest2 =>
          intro i h
          rw [findBadDollar] at h
          split at h
          · rename_i hcond
            obtain ⟨hc1, hc2⟩ := hcond
            injection h with h0
            subst h0
            push_neg at hc2
            refine ⟨by simp [hc1], ?_⟩
            have he : (c1 :: c2 :: rest2)[1]? = some c2 := by simp
            rw [he]
            simp [Option.any, hc2.1, hc2.2]
          · rw [Option.map_eq_some'] at h
            obtain ⟨j, hj, hji⟩ := h
            subst hji
            have hb := ih j hj
            exact ⟨by simpa using hb.1, by simpa using hb.2⟩

/-- When `findBadDollar` finds nothing, no position is a bad pair. -/
theorem findBadDollar_none : ∀ (l : List Char),
    findBadDollar l = Option.none → ∀ i, ¬ badPairAt l i := by
  intro l
  induction l with
  | nil => intro _ i hbad; simp [badPairAt] at hbad
  | cons c1 rest ih =>
      cases rest with
      | nil =>
          intro _ i hbad
          obtain ⟨h1, h2⟩ := hbad
          cases i with
          | zero => simp at h2
          | succ n => simp at h1
      | cons c2 rest2 =>
          intro h i hbad
          rw [findBadDollar] at h
          split at h
          · exact absurd h (by simp)
          · rename_i hcond
            rw [Option.map_eq_none'] at h
            cases i with
            | zero =>
                obtain ⟨h1, h2⟩ := hbad
                have hc1 : c1 = '$' := by simpa using h1
                have he : (c1 :: c2 :: rest2)[1]? = some c2 := by simp
                rw [he] at h2
                simp [Option.any] at h2
                exact hcond ⟨hc1, by
                  intro hor
                  rcases hor with hw | hb
                  · rw [hw] at h2; simp at h2
                  · rw [hb] at h2; simp at h2⟩
            | succ n =>
                refine ih h n ⟨by simpa using hbad.1, by simpa using hbad.2⟩

/-- A hit of `firstBadLine` is a member ln with that bad index. -/
theorem firstBadLine_some : ∀ (ls : List (List Char)) (ln : List Char) (i : Nat),
    firstBadLine ls = some (ln, i) →
      ln ∈ ls ∧ findBadDollar ln = some i := by
  intro ls
  induction ls with
  | nil => intro ln i h; simp [firstBadLine] at h
  | cons l rest ih =>
      intro ln i h
      rw [firstBadLine] at h
      rcases hf : findBadDollar l with _ | j
      · rw [hf] at h
        obtain ⟨hmem, hspec⟩ := ih ln i h
        exact ⟨List.mem_cons_of_mem _ hmem, hspec⟩
      · rw [hf] at h
        injection h with h2
        rw [Prod.mk.injEq] at h2
        obtain ⟨hl, hi⟩ := h2
        subst hl
        subst hi
        exact ⟨by simp, hf⟩

/-- When `firstBadLine` finds nothing, no member line has a hit. -/
theorem firstBadLine_none : ∀ (ls : List (List Char)),
    firstBadLine ls = Option.none → ∀ l ∈ ls, findBadDollar l = Option.none := by
  intro ls
  induction ls with
  | nil => intro _ l hl; simp at hl
  | cons l0 rest ih =>
      intro h l hl
      rw [firstBadLine] at h
      rcases hf : findBadDollar l0 with _ | j
      · rw [hf] at h
        rcases List.mem_cons.mp hl with he | hmem
        · rw [he]; exact hf
        · exact ih h l hmem
      · rw [hf] at h; simp at h

/-- An error of `varsInFragment` comes from a member line with a bad pair and
carries the caret message built from that line and position. -/
theorem varsInFragment_error (frag : List Char) (er : NinjaErr)
    (h : varsInFragment frag = .error er) :
    ∃ ln i, ln ∈ splitNL frag ∧ badPairAt ln i ∧
      er = .runtimeError (badEscapeMsg ln i) := by
  unfold varsInFragment at h
  rcases hf : firstBadLine (splitNL frag) with _ | li
  · rw [hf] at h; simp at h
  · rw [hf] at h
    obtain ⟨ln, i⟩ := li
    obtain ⟨hmem, hspec⟩ := firstBadLine_some _ _ _ hf
    refine ⟨ln, i, hmem, findBadDollar_some _ _ hspec, ?_⟩
    injection h with h2
    exact h2.symm

/-- A successful `varsInFragment` means no line of the fragment has a bad
pair. -/
theorem varsInFragment_ok (frag : List Char) (out : List (List Char))
    (h : varsInFragment frag = .ok out) :
    ∀ ln ∈ splitNL frag, ∀ i, ¬ badPairAt ln i := by
  unfold varsInFragment at h
  rcases hf : firstBadLine (splitNL frag) with _ | li
  · intro ln hln i
    exact findBadDollar_none ln (firstBadLine_none _ hf ln hln) i
  · rw [hf] at h; simp at h

/-- An error of `varsInFrags` comes from a member fragment. -/
theorem varsInFrags_error : ∀ (frags : List (List Char)) (er : NinjaErr),
    varsInFrags frags = .error er → ∃ f ∈ frags, varsInFragment f = .error er := by
  intro frags
  induction frags with
  | nil => intro er h; simp [varsInFrags] at h
  | cons f fs ih =>
      intro er h
      rw [varsInFrags] at h
      rcases hf : varsInFragment f with e2 | a
      · rw [hf, exceptBindErr] at h
        injection h with h2
        exact ⟨f, by simp, by rw [hf, h2]⟩
      · rw [hf, exceptBindOk] at h
        rcases hfs : varsInFrags fs with e2 | b
        · rw [hfs, exceptBindErr] at h
          injection h with h2
          subst h2
          obtain ⟨f2, hmem, hspec⟩ := ih e2 hfs
          exact ⟨f2, List.mem_cons_of_mem _ hmem, hspec⟩
        · rw [hfs, exceptBindOk] at h
          simp at h

/-- A successful `varsInFrags` means every member fragment succeeded. -/
theorem varsInFrags_ok : ∀ (frags : List (List Char)) (out : List (List Char)),
    varsInFrags frags = .ok out →
      ∀ f ∈ frags, ∃ o, varsInFragment f = .ok o := by
  intro frags
  induction frags with
  | nil => intro out _ f hf; simp at hf
  | cons f0 fs ih =>
      intro out h f hf
      rw [varsInFrags] at h
      rcases hf0 : varsInFragment f0 with e2 | a
      · rw [hf0, exceptBindErr] at h; simp at h
      · rw [hf0, exceptBindOk] at h
        rcases hfs : varsInFrags fs with e2 | b
        · rw [hfs, exceptBindErr] at h; simp at h
        · rcases List.mem_cons.mp hf with he | hmem
          · exact ⟨a, by rw [he]; exact hf0⟩
          · exact ih b hfs f hmem

/-- `vars_in` on one string reduces to `varsInFrags` on its fragments. -/
theorem vars_in_str_frags (s : String) :
    vars_in (.str s) = (varsInFrags (splitDD s.toList)).map (fun l => l.map String.mk) := by
  show Except.map (fun l => List.map String.mk l)
      (do
        let a ← varsInFrags (splitDD s.toList)
        let b ← varsInTexts []
        (.ok (a ++ b) : Except NinjaErr (List (List Char)))) =
    (varsInFrags (splitDD s.toList)).map (fun l => l.map String.mk)
  rcases hf : varsInFrags (splitDD s.toList) with e | a
  · rw [exceptBindErr]
  · rw [exceptBindOk]
    rw [show (varsInTexts [] : Except NinjaErr (List (List Char))) = .ok [] from rfl,
      exceptBindOk]
    simp [Except.map]

/-- C3 (amended): a remaining dollar sign followed by a character outside
`[A-Za-z0-9_]` and different from the opening brace makes the extractor raise
a fatal syntax error whose message reproduces the offending line followed by
a caret under the bad dollar sign. (A dollar at the end of a line has no
following character, matches nothing, and raises no error.) -/
theorem vars_in_bad_escape (s : String)
    (hbad : ∃ frag ∈ splitDD s.toList, ∃ ln ∈ splitNL frag, ∃ i, badPairAt ln i) :
    ∃ frag ∈ splitDD s.toList, ∃ ln ∈ splitNL frag, ∃ i, badPairAt ln i ∧
      vars_in (.str s) = .error (.runtimeError (badEscapeMsg ln i)) := by
  rw [vars_in_str_frags]
  rcases hv : varsInFrags (splitDD s.toList) with er | out
  · obtain ⟨f, hfmem, hferr⟩ := varsInFrags_error _ _ hv
    obtain ⟨ln, i, hlmem, hbadi, he⟩ := varsInFragment_error _ _ hferr
    subst he
    exact ⟨f, hfmem, ln, hlmem, i, hbadi, rfl⟩
  · exfalso
    obtain ⟨frag, hfrag, ln, hln, i, hbadi⟩ := hbad
    obtain ⟨o, ho⟩ := varsInFrags_ok _ _ hv frag hfrag
    exact varsInFragment_ok _ _ ho ln hln i hbadi

/-- C3 counterexample: the template `a$` ends in a dollar sign that is not
followed by any character — under the claim's wording it is "not followed by
a character in `[A-Za-z0-9_]` or by `\x7b`" — yet the extractor raises no
error and returns the empty set, because the regex requires a following
character. -/
theorem vars_in_trailing_dollar_counterexample :
    vars_in (.str "a$") = .ok [] ∧
    ("a$".toList)[1]? = some '$' ∧ ("a$".toList)[2]? = Option.none := by
  refine ⟨?_, by decide, by decide⟩
  have h1 : ("a$").toList = ['a', '$'] := rfl
  rw [vars_in_str_frags, h1]
  rw [show splitDD ['a', '$'] = [['a', '$']] from rfl]
  rw [show varsInFrags [['a', '$']] =
    (do
      let a ← varsInFragment ['a', '$']
      let b ← varsInFrags []
      (.ok (a ++ b) : Except NinjaErr (List (List Char)))) from rfl]
  have h2 : varsInFragment ['a', '$'] = .ok [] := by
    unfold varsInFragment
    rw [show splitNL ['a', '$'] = [['a', '$']] from rfl]
    rw [show firstBadLine [['a', '$']] =
      (match findBadDollar ['a', '$'] with
       | some i => some (['a', '$'], i)
       | Option.none => firstBadLine []) from rfl]
    rw [show findBadDollar ['a', '$'] = Option.none from by
      simp [findBadDollar, isWordChar]]
    simp [firstBadLine, findallBare, findallBraced, isWordChar]
  rw [h2, exceptBindOk]
  rfl

/-- Witness for C3 (amended): the template `a$ b` has a dollar followed by a
space; the extractor raises the caret-bearing error. -/
theorem vars_in_bad_escape_witness :
    ∃ frag ∈ splitDD ("a$ b").toList, ∃ ln ∈ splitNL frag, ∃ i, badPairAt ln i ∧
      vars_in (.str "a$ b") = .error (.runtimeError (badEscapeMsg ln i)) := by
  apply vars_in_bad_escape
  refine ⟨['a', '$', ' ', 'b'], ?_, ['a', '$', ' ', 'b'], ?_, 1, ?_, ?_⟩
  · rw [show ("a$ b").toList = ['a', '$', ' ', 'b'] from rfl]
    rw [show splitDD ['a', '$', ' ', 'b'] = [['a', '$', ' ', 'b']] from rfl]
    simp
  · rw [show splitNL ['a', '$', ' ', 'b'] = [['a', '$', ' ', 'b']] from rfl]
    simp
  · decide
  · decide

/- ## Claim C4 -/

/-- Declarative reading of a bare `$name` reference: somewhere in the
fragment a dollar sign is followed by the nonempty word run `n`, and the run
is maximal — the fragment ends there or the next character is not a word
character. This is what `re.findall(r"\$(\w+)", x)` captures. -/
def bareRef (cs n : List Char) : Prop :=
  n ≠ [] ∧ n.all isWordChar = true ∧
    (∃ pre post, cs = pre ++ '$' :: (n ++ post) ∧
      (post = [] ∨ ∃ c post2, post = c :: post2 ∧ isWordChar c = false))

/-- Declarative reading of a braced `${name}` reference, as captured by
`re.findall(r"\${(\w+)}", x)`. -/
def bracedRef (cs n : List Char) : Prop :=
  n ≠ [] ∧ n.all isWordChar = true ∧
    (∃ pre post, cs = pre ++ '$' :: ('{' :: (n ++ ('}' :: post))))

/-- A dollar-free prefix can be peeled off a reference decomposition. -/
theorem dollar_split : ∀ (A : List Char), (∀ c ∈ A, c ≠ '$') →
    ∀ (rest pre T : List Char), A ++ rest = pre ++ '$' :: T →
      ∃ pre2, pre = A ++ pre2 ∧ rest = pre2 ++ '$' :: T := by
  intro A
  induction A with
  | nil => intro _ rest pre T h; exact ⟨pre, rfl, h⟩
  | cons a A2 ih =>
      intro hA rest pre T h
      cases pre with
      | nil =>
          simp at h
          exact absurd h.1 (hA a (by simp))
      | cons p pre2 =>
          simp at h
          obtain ⟨hap, h2⟩ := h
          obtain ⟨pre3, hpre, hrest⟩ :=
            ih (fun c hc => hA c (List.mem_cons_of_mem _ hc)) rest pre2 T h2
          exact ⟨pre3, by simp [hpre, hap], hrest⟩

/-- A bare reference survives prefixing. -/
theorem bareRef_append_of (A Y n : List Char) (h : bareRef Y n) :
    bareRef (A ++ Y) n := by
  obtain ⟨h1, h2, pre, post, he, hb⟩ := h
  exact ⟨h1, h2, A ++ pre, post, by rw [he]; simp [List.append_assoc], hb⟩

/-- A braced reference survives prefixing. -/
theorem bracedRef_append_of (A Y n : List Char) (h : bracedRef Y n) :
    bracedRef (A ++ Y) n := by
  obtain ⟨h1, h2, pre, post, he⟩ := h
  exact ⟨h1, h2, A ++ pre, post, by rw [he]; simp [List.append_assoc]⟩

/-- A bare reference in a dollar-free-prefixed list lives in the suffix. -/
theorem bareRef_unappend (A Y n : List Char) (hA : ∀ c ∈ A, c ≠ '$')
    (h : bareRef (A ++ Y) n) : bareRef Y n := by
  obtain ⟨h1, h2, pre, post, he, hb⟩ := h
  obtain ⟨pre2, _, hrest⟩ := dollar_split A hA Y pre (n ++ post) he
  exact ⟨h1, h2, pre2, post, hrest, hb⟩

/-- A braced reference in a dollar-free-prefixed list lives in the suffix. -/
theorem bracedRef_unappend (A Y n : List Char) (hA : ∀ c ∈ A, c ≠ '$')
    (h : bracedRef (A ++ Y) n) : bracedRef Y n := by
  obtain ⟨h1, h2, pre, post, he⟩ := h
  obtain ⟨pre2, _, hrest⟩ :=
    dollar_split A hA Y pre ('{' :: (n ++ ('}' :: post))) he
  exact ⟨h1, h2, pre2, post, hrest⟩

/-- `takeWhile` walks through a prefix every element of which satisfies the
predicate. -/
theorem takeWhile_all_append (p : Char → Bool) :
    ∀ (n l : List Char), n.all p = true →
      (n ++ l).takeWhile p = n ++ l.takeWhile p := by
  intro n
  induction n with
  | nil => intro l _; rfl
  | cons c n2 ih =>
      intro l hn
      simp only [List.all_cons, Bool.and_eq_true] at hn
      simp [List.takeWhile_cons, hn.1, ih l hn.2]

/-- `dropWhile` drops a prefix every element of which satisfies the
predicate. -/
theorem dropWhile_all_append (p : Char → Bool) :
    ∀ (n l : List Char), n.all p = true →
      (n ++ l).dropWhile p = l.dropWhile p := by
  intro n
  induction n with
  | nil => intro l _; rfl
  | cons c n2 ih =>
      intro l hn
      simp only [List.all_cons, Bool.and_eq_true] at hn
      simp [List.dropWhile_cons, hn.1, ih l hn.2]

/-- The head of a `dropWhile` result fails the predicate. -/
theorem dropWhile_head_false (p : Char → Bool) :
    ∀ (l : List Char) (c : Char) (t : List Char),
      l.dropWhile p = c :: t → p c = false := by
  intro l
  induction l with
  | nil => intro c t h; simp at h
  | cons a rest ih =>
      intro c t h
      rw [List.dropWhile_cons] at h
      split at h
      · exact ih c t h
      · injection h with h1 h2
        subst h1
        rename_i ha
        simpa using ha

/-- Every element of a `takeWhile` result satisfies the predicate. -/
theorem takeWhile_all (p : Char → Bool) :
    ∀ (l : List Char), (l.takeWhile p).all p = true := by
  intro l
  induction l with
  | nil => rfl
  | cons a rest ih =>
      rw [List.takeWhile_cons]
      split
      · rename_i ha
        simp [ha, ih]
      · rfl

/-- A maximal word run at the head of a list is exactly its `takeWhile`, and
what follows is its `dropWhile`. -/
theorem run_at_head (p : Char → Bool) (n post : List Char)
    (h2 : n.all p = true)
    (hb : post = [] ∨ ∃ c post2, post = c :: post2 ∧ p c = false) :
    n = (n ++ post).takeWhile p ∧ post = (n ++ post).dropWhile p := by
  constructor
  · rw [takeWhile_all_append p n post h2]
    rcases hb with hb | ⟨c, post2, hpost, hc⟩
    · simp [hb]
    · rw [hpost, List.takeWhile_cons, hc]
      simp
  · rw [dropWhile_all_append p n post h2]
    rcases hb with hb | ⟨c, post2, hpost, hc⟩
    · simp [hb]
    · rw [hpost, List.dropWhile_cons, hc]
      simp

/-- A word character is not a dollar sign. -/
theorem wordChar_ne_dollar (c : Char) (h : isWordChar c = true) : c ≠ '$' :=
  fun he => absurd (he ▸ h) (by decide)

/-- An all-word list is dollar-free. -/
theorem all_word_no_dollar (l : List Char) (h : l.all isWordChar = true) :
    ∀ c ∈ l, c ≠ '$' := by
  intro c hc
  rw [List.all_eq_true] at h
  exact wordChar_ne_dollar c (h c hc)

/-- Dropping the length of the `takeWhile` prefix is `dropWhile`. -/
theorem drop_takeWhile_length (p : Char → Bool) :
    ∀ (l : List Char), l.drop (l.takeWhile p).length = l.dropWhile p := by
  intro l
  induction l with
  | nil => rfl
  | cons a rest ih =>
      rw [List.takeWhile_cons, List.dropWhile_cons]
      split
      · simpa using ih
      · rfl

/-- The bare-reference scanner finds exactly the declarative bare
references. -/
theorem findallBare_iff : ∀ (cs n : List Char), n ∈ findallBare cs ↔ bareRef cs n := by
  intro cs
  induction cs using findallBare.induct with
  | case1 =>
      intro n
      rw [findallBare]
      simp only [List.not_mem_nil, false_iff]
      rintro ⟨h1, h2, pre, post, he, hb⟩
      simp at he
  | case2 rest run hrun ih =>
      intro n
      have hrun2 : (List.takeWhile isWordChar rest).isEmpty = true := hrun
      have heq : findallBare ('$' :: rest) = findallBare rest := by
        rw [findallBare]
        simp [hrun2]
      rw [heq, ih n]
      constructor
      · exact fun h => bareRef_append_of ['$'] rest n h
      · rintro ⟨h1, h2, pre, post, he, hb⟩
        cases pre with
        | nil =>
            exfalso
            simp only [List.nil_append, List.cons.injEq] at he
            cases n with
            | nil => exact h1 rfl
            | cons nh nt =>
                have hword : isWordChar nh = true := by
                  simp only [List.all_cons, Bool.and_eq_true] at h2
                  exact h2.1
                rw [he.2] at hrun2
                simp [List.takeWhile_cons, hword] at hrun2
        | cons p pre2 =>
            simp only [List.cons_append, List.cons.injEq] at he
            exact ⟨h1, h2, pre2, post, he.2, hb⟩
  | case3 rest run hrun ih =>
      intro n
      have hrun2 : ¬ (List.takeWhile isWordChar rest).isEmpty = true := hrun
      have hw : (rest.takeWhile isWordChar).all isWordChar = true := takeWhile_all _ _
      have hnd : ∀ c ∈ rest.takeWhile isWordChar, c ≠ '$' := all_word_no_dollar _ hw
      have hsplit : rest.takeWhile isWordChar ++ rest.dropWhile isWordChar = rest :=
        List.takeWhile_append_dropWhile _ _
      have hne : rest.takeWhile isWordChar ≠ [] := by
        intro hnil
        exact hrun2 (by simp [hnil])
      have hih : ∀ m, m ∈ findallBare (rest.dropWhile isWordChar) ↔
          bareRef (rest.dropWhile isWordChar) m := by
        intro m
        have := ih m
        rwa [show List.drop run.length rest = rest.dropWhile isWordChar from
          drop_takeWhile_length isWordChar rest] at this
      have heq : findallBare ('$' :: rest) =
          rest.takeWhile isWordChar :: findallBare (rest.dropWhile isWordChar) := by
        rw [findallBare]
        simp [hrun2, drop_takeWhile_length]
      rw [heq]
      constructor
      · intro hmem
        rcases List.mem_cons.mp hmem with he | hmem2
        · subst he
          refine ⟨hne, hw, [], rest.dropWhile isWordChar, ?_, ?_⟩
          · rw [List.nil_append, List.cons.injEq]
            exact ⟨rfl, hsplit.symm⟩
          · rcases hdw : rest.dropWhile isWordChar with _ | ⟨c, t⟩
            · exact Or.inl rfl
            · exact Or.inr ⟨c, t, rfl, dropWhile_head_false _ rest c t hdw⟩
        · have hrefs := (hih n).mp hmem2
          have hlift := bareRef_append_of ('$' :: rest.takeWhile isWordChar)
            (rest.dropWhile isWordChar) n hrefs
          have heq2 : ('$' :: rest.takeWhile isWordChar) ++ rest.dropWhile isWordChar =
              '$' :: rest := by rw [List.cons_append, hsplit]
          rw [heq2] at hlift
          exact hlift
      · rintro ⟨h1, h2, pre, post, he, hb⟩
        cases pre with
        | nil =>
            simp only [List.nil_append, List.cons.injEq] at he
            have hrh := run_at_head isWordChar n post h2 hb
            rw [← he.2] at hrh
            exact List.mem_cons.mpr (Or.inl hrh.1)
        | cons p pre2 =>
            simp only [List.cons_append, List.cons.injEq] at he
            obtain ⟨pre3, _, hrest⟩ := dollar_split (rest.takeWhile isWordChar) hnd
              (rest.dropWhile isWordChar) pre2 (n ++ post) (by rw [hsplit]; exact he.2)
            refine List.mem_cons.mpr (Or.inr ?_)
            rw [hih n]
            exact ⟨h1, h2, pre3, post, hrest, hb⟩
  | case4 c rest hc ih =>
      intro n
      have heq : findallBare (c :: rest) = findallBare rest := by
        rw [findallBare]
        simp [hc]
      rw [heq, ih n]
      constructor
      · exact fun h => bareRef_append_of [c] rest n h
      · rintro ⟨h1, h2, pre, post, he, hb⟩
        cases pre with
        | nil =>
            exfalso
            simp only [List.nil_append, List.cons.injEq] at he
            exact hc he.1
        | cons p pre2 =>
            simp only [List.cons_append, List.cons.injEq] at he
            exact ⟨h1, h2, pre2, post, he.2, hb⟩

/-- The braced-reference scanner finds exactly the declarative braced
references. -/
theorem findallBraced_iff : ∀ (cs n : List Char),
    n ∈ findallBraced cs ↔ bracedRef cs n := by
  intro cs
  induction cs using findallBraced.induct with
  | case1 rest run hfail ih =>
      intro n
      have hfail2 : (List.takeWhile isWordChar rest).isEmpty = true ∨
          (rest.drop (List.takeWhile isWordChar rest).length).head? ≠ some '}' := hfail
      have heq : findallBraced ('$' :: '{' :: rest) = findallBraced ('{' :: rest) := by
        rw [findallBraced]
        rw [if_pos hfail2]
      rw [heq, ih n]
      constructor
      · exact fun h => bracedRef_append_of ['$'] ('{' :: rest) n h
      · rintro ⟨h1, h2, pre, post, he⟩
        cases pre with
        | nil =>
            exfalso
            simp only [List.nil_append, List.cons.injEq] at he
            have hrest : rest = n ++ ('}' :: post) := he.2.2
            have htw : List.takeWhile isWordChar rest = n := by
              rw [hrest, takeWhile_all_append isWordChar n ('}' :: post) h2,
                List.takeWhile_cons]
              simp [show isWordChar '}' = false from by decide]
            have hdw : rest.drop (List.takeWhile isWordChar rest).length =
                '}' :: post := by
              rw [drop_takeWhile_length, hrest,
                dropWhile_all_append isWordChar n ('}' :: post) h2,
                List.dropWhile_cons]
              simp [show isWordChar '}' = false from by decide]
            rcases hfail2 with hf | hf
            · rw [htw] at hf
              cases n with
              | nil => exact h1 rfl
              | cons a b => simp at hf
            · rw [hdw] at hf
              simp at hf
        | cons p pre2 =>
            simp only [List.cons_append, List.cons.injEq] at he
            exact ⟨h1, h2, pre2, post, he.2⟩
  | case2 rest run hsucc ih =>
      intro n
      rw [not_or] at hsucc
      obtain ⟨hne0, hhead⟩ := hsucc
      rw [not_not] at hhead
      have hne : List.takeWhile isWordChar rest ≠ [] := by
        intro hnil
        exact hne0 (by simp [show run = List.takeWhile isWordChar rest from rfl, hnil])
      have hdr : rest.drop run.length = rest.dropWhile isWordChar :=
        drop_takeWhile_length isWordChar rest
      have hdw : ∃ tl, rest.dropWhile isWordChar = '}' :: tl := by
        rcases hx : rest.dropWhile isWordChar with _ | ⟨c, t⟩
        · rw [hdr, hx] at hhead; simp at hhead
        · rw [hdr, hx] at hhead
          simp at hhead
          rw [hhead]
          exact ⟨t, rfl⟩
      obtain ⟨tl, htl⟩ := hdw
      have hsplit : List.takeWhile isWordChar rest ++ ('}' :: tl) = rest := by
        rw [← htl]
        exact List.takeWhile_append_dropWhile _ _
      have hw : (rest.takeWhile isWordChar).all isWordChar = true := takeWhile_all _ _
      have htail : (rest.drop run.length).tail = tl := by
        rw [hdr, htl]
        rfl
      have heq : findallBraced ('$' :: '{' :: rest) =
          List.takeWhile isWordChar rest :: findallBraced tl := by
        rw [findallBraced]
        rw [if_neg (by rw [hdr, htl]; simp [hne])]
        rw [htail]
      rw [heq]
      constructor
      · intro hmem
        rcases List.mem_cons.mp hmem with he | hmem2
        · subst he
          refine ⟨hne, hw, [], tl, ?_⟩
          rw [List.nil_append, List.cons.injEq, List.cons.injEq]
          exact ⟨rfl, rfl, hsplit.symm⟩
        · have hrefs := (ih n).mp (by rw [htail]; exact hmem2)
          rw [htail] at hrefs
          have hlift := bracedRef_append_of
            ('$' :: '{' :: (List.takeWhile isWordChar rest ++ ['}'])) tl n hrefs
          have heq2 : ('$' :: '{' :: (List.takeWhile isWordChar rest ++ ['}'])) ++ tl =
              '$' :: '{' :: rest := by
            simp only [List.cons_append, List.append_assoc, List.singleton_append,
              List.nil_append]
            rw [hsplit]
          rw [heq2] at hlift
          exact hlift
      · rintro ⟨h1, h2, pre, post, he⟩
        cases pre with
        | nil =>
            simp only [List.nil_append, List.cons.injEq] at he
            have hrest : rest = n ++ ('}' :: post) := he.2.2
            have htw : List.takeWhile isWordChar rest = n := by
              rw [hrest, takeWhile_all_append isWordChar n ('}' :: post) h2,
                List.takeWhile_cons]
              simp [show isWordChar '}' = false from by decide]
            exact List.mem_cons.mpr (Or.inl htw.symm)
        | cons p pre2 =>
            simp only [List.cons_append, List.cons.injEq] at he
            obtain ⟨hp, he2⟩ := he
            cases pre2 with
            | nil =>
                exfalso
                simp only [List.nil_append, List.cons.injEq] at he2
                exact absurd he2.1 (by decide)
            | cons q pre3 =>
                simp only [List.cons_append, List.cons.injEq] at he2
                have hnd : ∀ c ∈ List.takeWhile isWordChar rest ++ ['}'], c ≠ '$' := by
                  intro c hc
                  rcases List.mem_append.mp hc with hc2 | hc2
                  · exact all_word_no_dollar _ hw c hc2
                  · simp at hc2
                    rw [hc2]
                    decide
                have happ : (List.takeWhile isWordChar rest ++ ['}']) ++ tl = rest := by
                  simp only [List.append_assoc, List.singleton_append]
                  exact hsplit
                obtain ⟨pre4, _, hrest2⟩ := dollar_split
                  (List.takeWhile isWordChar rest ++ ['}']) hnd tl pre3
                  ('{' :: (n ++ ('}' :: post)))
                  (by rw [happ]; exact he2.2)
                refine List.mem_cons.mpr (Or.inr ?_)
                have hih := ih n
                rw [htail] at hih
                exact hih.mpr ⟨h1, h2, pre4, post, hrest2⟩
  | case3 c rest hguard ih =>
      intro n
      have heq : findallBraced (c :: rest) = findallBraced rest := by
        rw [findallBraced.eq_def]
        split
        · rename_i rest2 heq2
          exfalso
          injection heq2 with hc hr
          exact hguard rest2 hc hr
        · rename_i cs2 hd tl2 hg2 heq2
          injection heq2 with hh ht
          rw [ht]
        · rename_i heq3
          exact absurd heq3 (by simp)
      rw [heq, ih n]
      constructor
      · exact fun h => bracedRef_append_of [c] rest n h
      · rintro ⟨h1, h2, pre, post, he⟩
        cases pre with
        | nil =>
            exfalso
            simp only [List.nil_append, List.cons.injEq] at he
            exact hguard (n ++ ('}' :: post)) he.1 he.2
        | cons p pre2 =>
            simp only [List.cons_append, List.cons.injEq] at he
            exact ⟨h1, h2, pre2, post, he.2⟩
  | case4 =>
      intro n
      rw [findallBraced]
      simp only [List.not_mem_nil, false_iff]
      rintro ⟨h1, h2, pre, post, he⟩
      simp at he

/-- Success members of a fragment extraction are exactly its references. -/
theorem varsInFragment_ok_mem (frag : List Char) (out : List (List Char))
    (h : varsInFragment frag = .ok out) :
    ∀ n, n ∈ out ↔ (bareRef frag n ∨ bracedRef frag n) := by
  unfold varsInFragment at h
  rcases hf : firstBadLine (splitNL frag) with _ | li
  · rw [hf] at h
    injection h with h2
    subst h2
    intro n
    rw [List.mem_append, findallBare_iff, findallBraced_iff]
  · rw [hf] at h
    simp at h

/-- Success members of the fragments fold are references of some fragment. -/
theorem varsInFrags_ok_mem : ∀ (frags : List (List Char)) (out : List (List Char)),
    varsInFrags frags = .ok out →
      ∀ n, n ∈ out ↔ ∃ f ∈ frags, bareRef f n ∨ bracedRef f n := by
  intro frags
  induction frags with
  | nil =>
      intro out h n
      rw [varsInFrags] at h
      injection h with h2
      subst h2
      simp
  | cons f fs ih =>
      intro out h n
      rw [varsInFrags] at h
      rcases hf : varsInFragment f with e | a
      · rw [hf, exceptBindErr] at h; simp at h
      · rw [hf, exceptBindOk] at h
        rcases hfs : varsInFrags fs with e | b
        · rw [hfs, exceptBindErr] at h; simp at h
        · rw [hfs, exceptBindOk] at h
          injection h with h2
          subst h2
          rw [List.mem_append, varsInFragment_ok_mem f a hf n, ih b hfs n]
          constructor
          · rintro (hr | ⟨f2, hf2, hr⟩)
            · exact ⟨f, by simp, hr⟩
            · exact ⟨f2, List.mem_cons_of_mem _ hf2, hr⟩
          · rintro ⟨f2, hf2, hr⟩
            rcases List.mem_cons.mp hf2 with he | hm
            · subst he; exact Or.inl hr
            · exact Or.inr ⟨f2, hm, hr⟩

/-- Success members over a list of template strings. -/
theorem varsInTexts_ok_mem : ∀ (ls : List String) (out : List (List Char)),
    varsInTexts ls = .ok out →
      ∀ n, n ∈ out ↔ ∃ s ∈ ls, ∃ f ∈ splitDD s.toList, bareRef f n ∨ bracedRef f n := by
  intro ls
  induction ls with
  | nil =>
      intro out h n
      rw [varsInTexts] at h
      injection h with h2
      subst h2
      simp
  | cons s ss ih =>
      intro out h n
      rw [varsInTexts] at h
      rcases hf : varsInFrags (splitDD s.toList) with e | a
      · rw [hf, exceptBindErr] at h; simp at h
      · rw [hf, exceptBindOk] at h
        rcases hfs : varsInTexts ss with e | b
        · rw [hfs, exceptBindErr] at h; simp at h
        · rw [hfs, exceptBindOk] at h
          injection h with h2
          subst h2
          rw [List.mem_append, varsInFrags_ok_mem _ a hf n, ih b hfs n]
          constructor
          · rintro (⟨f, hfm, hr⟩ | ⟨s2, hs2, hr⟩)
            · exact ⟨s, by simp, f, hfm, hr⟩
            · exact ⟨s2, List.mem_cons_of_mem _ hs2, hr⟩
          · rintro ⟨s2, hs2, hr⟩
            rcases List.mem_cons.mp hs2 with he | hm
            · subst he; exact Or.inl hr
            · exact Or.inr ⟨s2, hm, hr⟩

/-- The strings a duck-typed template argument holds. -/
def pyStrsStrings : PyStrs → List String
  | .none => []
  | .str s => [s]
  | .list l => l

/-- The declarative reference set of one template string: a name referenced
as `$name` or `$\x7bname\x7d` in one of its `$$`-free fragments. -/
def specRefs (s : String) (n : List Char) : Prop :=
  ∃ frag ∈ splitDD s.toList, bareRef frag n ∨ bracedRef frag n

/-- List-of-characters membership transfers along `String.mk`. -/
theorem mem_map_stringMk (l : List (List Char)) (n : String) :
    n ∈ l.map String.mk ↔ n.toList ∈ l := by
  rw [List.mem_map]
  constructor
  · rintro ⟨m, hm, rfl⟩
    exact hm
  · intro h
    exact ⟨n.toList, h, rfl⟩

/-- C4: on input free of syntax errors the variable extractor returns exactly
the set of `$name` / `$\x7bname\x7d` references of the template(s) — the
`$$`-escaped dollars are split away first and contribute nothing — and a
`None` or empty input yields the empty set. -/
theorem vars_in_exact_references (items : PyStrs) (out : List String)
    (h : vars_in items = .ok out) :
    (∀ n : String, n ∈ out ↔ ∃ s ∈ pyStrsStrings items, specRefs s n.toList) ∧
    vars_in PyStrs.none = .ok [] ∧ vars_in (PyStrs.str "") = .ok [] := by
  refine ⟨?_, rfl, ?_⟩
  · cases items with
    | none =>
        intro n
        rw [show vars_in PyStrs.none = .ok [] from rfl] at h
        injection h with h2
        subst h2
        simp [pyStrsStrings]
    | str s =>
        intro n
        have hv : vars_in (.str s) =
            (varsInTexts [s]).map (fun l => l.map String.mk) := rfl
        rw [hv] at h
        rcases ht : varsInTexts [s] with e | l
        · rw [ht] at h; simp [Except.map] at h
        · rw [ht] at h
          simp only [Except.map] at h
          injection h with h2
          subst h2
          rw [mem_map_stringMk, varsInTexts_ok_mem [s] l ht n.toList]
          simp [pyStrsStrings, specRefs]
    | list ls =>
        intro n
        have hv : vars_in (.list ls) =
            (varsInTexts ls).map (fun l2 => l2.map String.mk) := rfl
        rw [hv] at h
        rcases ht : varsInTexts ls with e | l
        · rw [ht] at h; simp [Except.map] at h
        · rw [ht] at h
          simp only [Except.map] at h
          injection h with h2
          subst h2
          rw [mem_map_stringMk, varsInTexts_ok_mem ls l ht n.toList]
          simp [pyStrsStrings, specRefs]
  · rw [vars_in_str_frags]
    rw [show ("" : String).toList = ([] : List Char) from rfl]
    rw [show splitDD ([] : List Char) = [[]] from rfl]
    have h2 : varsInFragment [] = (.ok [] : Except NinjaErr (List (List Char))) := by
      unfold varsInFragment
      rw [show splitNL ([] : List Char) = [[]] from rfl]
      simp [firstBadLine, findBadDollar, findallBare, findallBraced]
    rw [varsInFrags, h2, exceptBindOk]
    rw [show varsInFrags ([] : List (List Char)) =
      (.ok [] : Except NinjaErr (List (List Char))) from rfl]
    rw [exceptBindOk]
    rfl

/-- Witness for C4: a template with one bare reference and a `$$` escape. -/
theorem vars_in_exact_references_witness :
    vars_in (PyStrs.str "$a$$b") = .ok ["a"] ∧
    ("a" ∈ (["a"] : List String) ↔
      ∃ s ∈ pyStrsStrings (PyStrs.str "$a$$b"), specRefs s ("a").toList) := by
  have h : vars_in (PyStrs.str "$a$$b") = .ok ["a"] := by
    rw [vars_in_str_frags]
    rw [show ("$a$$b").toList = ['$', 'a', '$', '$', 'b'] from rfl]
    rw [show splitDD ['$', 'a', '$', '$', 'b'] = [['$', 'a'], ['b']] from rfl]
    have h1 : varsInFragment ['$', 'a'] =
        (.ok [['a']] : Except NinjaErr (List (List Char))) := by
      unfold varsInFragment
      rw [show splitNL ['$', 'a'] = [['$', 'a']] from rfl]
      simp [firstBadLine, findBadDollar, findallBare, findallBraced, isWordChar,
        List.takeWhile]
    have h2 : varsInFragment ['b'] = (.ok [] : Except NinjaErr (List (List Char))) := by
      unfold varsInFragment
      rw [show splitNL ['b'] = [['b']] from rfl]
      simp [firstBadLine, findBadDollar, findallBare, findallBraced, isWordChar]
    rw [varsInFrags, h1, exceptBindOk]
    rw [varsInFrags, h2, exceptBindOk]
    rw [show varsInFrags ([] : List (List Char)) =
      (.ok [] : Except NinjaErr (List (List Char))) from rfl]
    rw [exceptBindOk]
    rfl
  exact ⟨h, (vars_in_exact_references (PyStrs.str "$a$$b") ["a"] h).1 "a"⟩
